import Mathlib

/-!
# sortedintersect: the `SIntersect` engine of `sintersect.hpp`

A shallow embedding of the class `sortedIntersect::SIntersect<S, T>` and of the
properties stated about it.

* The scalar type `S` is instantiated at `int`, as in `tests/bench.cpp`
  (`SIntersect<int, int>`); scalars are mathematical integers, and the only
  place where the width of `S` shows is the sentinel
  `std::numeric_limits<S>::min()`, the constant `S_min`.  The engine only
  compares scalars, it never does arithmetic on them.
* `std::vector` is a list; `v[i]` outside `[0, v.size())` is undefined
  behaviour in C++ and is the fault `Fault.out_of_range` here.
* `size_t` values are natural numbers, `long int` values are integers.
* The two `while` loops that follow `branch_right` have no syntactic bound;
  they take a number of hops they may use and give the fault
  `Fault.out_of_fuel` when that number does not suffice.
-/

namespace sortedIntersect

/-- Ways in which a run fails to give a result. -/
inductive Fault where
  /-- An element outside `[0, size)` of a vector is read or written. -/
  | out_of_range
  /-- A walk along `branch_right` is not over after the allowed number of hops. -/
  | out_of_fuel
  deriving DecidableEq, Repr

/-- The record `siInterval<S>`; the field `end` is spelled `end_`. -/
structure siInterval where
  start : Int
  end_ : Int
  deriving DecidableEq, Repr

/-- The value `std::numeric_limits<S>::min()` for `S = int`. -/
def S_min : Int := -2147483648

/-- The value `std::numeric_limits<long int>::max()` (64-bit `long int`). -/
def LONG_MAX : Int := 9223372036854775807

/-- The function `is_overlapping(x1, x2, y1, y2)`. -/
def is_overlapping (x1 x2 y1 y2 : Int) : Bool :=
  decide (max x1 y1 ≤ min x2 y2)

/-- The function `is_overlapping_interval(x1, x2, itv)`. -/
def is_overlapping_interval (x1 x2 : Int) (itv : siInterval) : Bool :=
  decide (max x1 itv.start ≤ min x2 itv.end_)

/-- The data members of `SIntersect<S, T>`. -/
structure SIntersect (T : Type) where
  starts : List Int
  ends : List Int
  intervals : List siInterval
  branch_left : List Int
  branch_right : List Int
  data : List T
  distance_threshold : Int
  idx : Nat
  n_intervals : Nat
  last_q_start : Int
  isSorted : Bool
  COUNTER : Int
  deriving DecidableEq, Repr

/-- Reading `v[i]` for an unsigned index `i`. -/
def vget {α : Type} (v : List α) (i : Nat) : Except Fault α :=
  match v[i]? with
  | some x => .ok x
  | none => .error .out_of_range

/-- Reading `v[i]` for a `long int` index `i`; a negative `i` converts to a
huge `size_t`. -/
def vgetl {α : Type} (v : List α) (i : Int) : Except Fault α :=
  if i < 0 then .error .out_of_range else vget v i.toNat

/-- The assignment `v[i] = x`. -/
def vset {α : Type} (v : List α) (i : Nat) (x : α) : Except Fault (List α) :=
  if i < v.length then .ok (v.set i x) else .error .out_of_range

/-- The call `v.resize(n, x)`. -/
def resize {α : Type} (v : List α) (n : Nat) (x : α) : List α :=
  v.take n ++ List.replicate (n - v.length) x

/-- The loop of `std::lower_bound` on `[first, first + len)`: halve the range,
keep the right part when the middle element is less than `val`.  The first
argument bounds the number of rounds; `len` rounds always suffice. -/
def lower_bound_loop (v : List Int) (val : Int) : Nat → Nat → Nat → Nat
  | 0, first, _ => first
  | fuel + 1, first, len =>
    if len = 0 then first
    else
      let half := len / 2
      let middle := first + half
      if v.getD middle 0 < val then
        lower_bound_loop v val fuel (middle + 1) (len - half - 1)
      else
        lower_bound_loop v val fuel first half

/-- The call `std::lower_bound(v.begin() + first, v.begin() + last, val)` of the
C++ standard library, as an offset from `v.begin()`; it needs
`first ≤ last ≤ v.size()`.  On a range sorted in ascending order the result is
the first position whose element is not less than `val`. -/
def lower_bound (v : List Int) (first last : Nat) (val : Int) : Nat :=
  lower_bound_loop v val (last - first) first (last - first)

/-- The constructor `SIntersect()`. -/
def SIntersect.new (T : Type) : SIntersect T :=
  { starts := [], ends := [], intervals := [], branch_left := [], branch_right := [],
    data := [], distance_threshold := 50000, idx := 0, n_intervals := 0,
    last_q_start := S_min, isSorted := true, COUNTER := 0 }

/-- The method `clear()`. -/
def clear {T : Type} (s : SIntersect T) : SIntersect T :=
  { s with idx := 0, last_q_start := S_min, intervals := [], data := [] }

/-- The method `size()`. -/
def size {T : Type} (s : SIntersect T) : Nat :=
  s.intervals.length

/-- How a call of `add` ends: it returns, or it throws `std::runtime_error`;
either way the object is left in the state carried here. -/
inductive AddResult (T : Type) where
  | returned (s : SIntersect T)
  | threw (s : SIntersect T)
  deriving DecidableEq, Repr

/-- The object after the call, however it ended. -/
def AddResult.state {T : Type} : AddResult T → SIntersect T
  | .returned s => s
  | .threw s => s

/-- Whether the call threw. -/
def AddResult.failed {T : Type} : AddResult T → Bool
  | .returned _ => false
  | .threw _ => true

/-- The method `add(start, end, value)`. -/
def add {T : Type} (s : SIntersect T) (start end_ : Int) (value : T) : AddResult T :=
  match s.intervals.getLast? with
  | some back =>
    if start < back.start then
      .threw { s with isSorted := false }
    else
      .returned { s with
        intervals := s.intervals ++ [⟨start, end_⟩]
        data := s.data ++ [value]
        starts := s.starts ++ [start]
        ends := s.ends ++ [end_] }
  | none =>
    .returned { s with
      intervals := s.intervals ++ [⟨start, end_⟩]
      data := s.data ++ [value]
      starts := s.starts ++ [start]
      ends := s.ends ++ [end_] }

/-- The method `_binary_search(pos)`.  The iterator `starts.begin() + idx` is
only valid for `idx ≤ starts.size()`. -/
def _binary_search {T : Type} (s : SIntersect T) (pos : Int) : Except Fault (SIntersect T) :=
  if s.starts.length < s.idx then .error .out_of_range
  else
    let lower :=
      if s.last_q_start < pos then lower_bound s.starts s.idx s.starts.length pos
      else lower_bound s.starts 0 s.idx pos
    let lower :=
      if lower ≠ 0 ∧ (lower = s.starts.length ∨ s.starts.getD lower 0 > pos) then lower - 1
      else lower
    .ok { s with idx := lower }

/-- The test `tbl[k] < 0 || qStart > intervals[tbl[k]].start` that guards each
of the four table updates of `index()`. -/
def improves (intervals : List siInterval) (tbl : List Int) (k : Nat) (qStart : Int) :
    Except Fault Bool := do
  let cur ← vget tbl k
  if cur < 0 then pure true
  else do
    let c ← vgetl intervals cur
    pure (decide (qStart > c.start))

/-- The inner loop `for (; j >= 0; --j)` of `index()` for the interval `i`
with bounds `start`, `end`; the counter is `j + 1`. -/
def index_inner {T : Type} (i : Nat) (start end_ : Int) :
    Nat → SIntersect T → Except Fault (SIntersect T)
  | 0, s => .ok s
  | j + 1, s =>
    if i = j then index_inner i start end_ j s
    else do
      let q ← vget s.intervals j
      let qStart := q.start
      let qEnd := q.end_
      if is_overlapping start end_ qStart qEnd then
        if qEnd > end_ then do
          let c1 ← improves s.intervals s.branch_right i qStart
          let br ← (if c1 then vset s.branch_right i (j : Int) else pure s.branch_right)
          let s := { s with branch_right := br }
          let c2 ← improves s.intervals s.branch_left j qStart
          let bl ← (if c2 then vset s.branch_left j (i : Int) else pure s.branch_left)
          let s := { s with branch_left := bl }
          index_inner i start end_ j s
        else do
          let c1 ← improves s.intervals s.branch_left i qStart
          let bl ← (if c1 then vset s.branch_left i (j : Int) else pure s.branch_left)
          let s := { s with branch_left := bl }
          let c2 ← improves s.intervals s.branch_right j qStart
          if c2 then do
            let bri ← vget s.branch_right i
            let br ← (if bri = (j : Int) then vset s.branch_right i (-1) else pure s.branch_right)
            let br ← vset br j (i : Int)
            index_inner i start end_ j { s with branch_right := br }
          else
            index_inner i start end_ j s
      else
        .ok s

/-- The outer loop `for (i = intervals.size() - 1; i >= 0; --i)` of `index()`;
the counter is `i + 1`. -/
def index_outer {T : Type} : Nat → SIntersect T → Except Fault (SIntersect T)
  | 0, s => .ok s
  | i + 1, s => do
    let itv ← vget s.intervals i
    let start := itv.start
    let end_ := itv.end_
    let s ← _binary_search s end_
    let j := s.idx
    let s := { s with last_q_start := start }
    let s ← index_inner i start end_ (j + 1) s
    index_outer i s

/-- The method `index()` up to its `return` (what follows it is never run). -/
def index {T : Type} (s : SIntersect T) : Except Fault (SIntersect T) :=
  let s := { s with n_intervals := s.intervals.length }
  if s.n_intervals < 2 then .ok s
  else do
    let s := { s with idx := 0 }
    let s :=
      if s.branch_left ≠ [] then { s with branch_left := [], branch_right := [] } else s
    let s := { s with branch_left := resize s.branch_left s.intervals.length (-1) }
    let s := { s with branch_right := resize s.branch_right s.intervals.length (-1) }
    let s ← index_outer s.intervals.length s
    pure { s with idx := 0 }

/-- The loop `while (i > 0)` of `search_overlap` that runs while no right
anchor is known; the result is `(i, max_right, min_right, found)`. -/
def sweep_free {T : Type} (s : SIntersect T) (start end_ : Int) :
    Nat → Int → Int → List Nat → Except Fault (Nat × Int × Int × List Nat)
  | 0, max_right, min_right, found => .ok (0, max_right, min_right, found)
  | i + 1, max_right, min_right, found => do
    let br ← vget s.branch_right (i + 1)
    if br ≥ 0 then
      pure (i + 1, max max_right br, min min_right br, found)
    else do
      let itv ← vget s.intervals (i + 1)
      if is_overlapping_interval start end_ itv then
        sweep_free s start end_ i max_right min_right (found ++ [i + 1])
      else if itv.end_ < start then
        pure (i + 1, max_right, min_right, found)
      else
        sweep_free s start end_ i max_right min_right found

/-- The loop `while (i > 0)` of `search_overlap` that runs once a right anchor
is known; the result is `(i, found)`. -/
def sweep_anchored {T : Type} (s : SIntersect T) (start end_ : Int) :
    Nat → List Nat → Except Fault (Nat × List Nat)
  | 0, found => .ok (0, found)
  | i + 1, found => do
    let itv ← vget s.intervals (i + 1)
    if is_overlapping_interval start end_ itv then
      sweep_anchored s start end_ i (found ++ [i + 1])
    else if itv.end_ < start then
      pure (i + 1, found)
    else
      sweep_anchored s start end_ i found

/-- The loop `while (max_right >= 0)` of `search_overlap`, allowed `fuel` hops;
the result is `(min_right, found)`. -/
def walk_max {T : Type} (s : SIntersect T) (start end_ : Int) :
    Nat → Int → Int → List Nat → Except Fault (Int × List Nat)
  | fuel, max_right, min_right, found =>
    if max_right < 0 then .ok (min_right, found)
    else
      match fuel with
      | 0 => .error .out_of_fuel
      | fuel + 1 => do
        let itv ← vgetl s.intervals max_right
        let next ← vgetl s.branch_right max_right
        if is_overlapping_interval start end_ itv then
          walk_max s start end_ fuel next (min min_right next) (found ++ [max_right.toNat])
        else
          walk_max s start end_ fuel next min_right found

/-- The loop `while (min_right >= 0 && min_right < i_right)` of
`search_overlap`, allowed `fuel` hops; the result is `found`. -/
def walk_min {T : Type} (s : SIntersect T) (start end_ : Int) (i_right : Int) :
    Nat → Int → List Nat → Except Fault (List Nat)
  | fuel, min_right, found =>
    if min_right ≥ 0 ∧ min_right < i_right then
      match fuel with
      | 0 => .error .out_of_fuel
      | fuel + 1 => do
        let itv ← vgetl s.intervals min_right
        let next ← vgetl s.branch_right min_right
        if is_overlapping_interval start end_ itv then
          walk_min s start end_ i_right fuel next (found ++ [min_right.toNat])
        else
          walk_min s start end_ i_right fuel next found
    else .ok found

/-- The method `search_overlap(start, end, found)`; each of its two walks along
`branch_right` may use `fuel` hops.  The result is the object and `found` on
return. -/
def search_overlap {T : Type} (fuel : Nat) (s : SIntersect T) (start end_ : Int)
    (found : List Nat) : Except Fault (SIntersect T × List Nat) :=
  if s.n_intervals = 0 then .ok (s, found)
  else do
    let found : List Nat := if found ≠ [] then [] else found
    let s ← _binary_search s end_
    let bl ← vget s.branch_left s.idx
    let max_right ← vget s.branch_right s.idx
    let min_right : Int := if max_right < 0 then LONG_MAX - 1 else max_right
    let cond ← (if bl ≥ 0 then do
                  let b ← vgetl s.intervals bl
                  pure (decide (b.start ≤ end_))
                else pure false)
    let start_idx : Int := if cond then max bl (s.idx : Int) else (s.idx : Int)
    let i : Nat := start_idx.toNat
    let (i, max_right, min_right, found) ←
      (if max_right < 0 then sweep_free s start end_ i max_right min_right found
       else pure (i, max_right, min_right, found))
    let (i, found) ←
      (if max_right ≥ 0 then sweep_anchored s start end_ i found
       else pure (i, found))
    let found ← (if i = 0 then do
                   let itv ← vget s.intervals i
                   pure (if is_overlapping_interval start end_ itv then found ++ [i] else found)
                 else pure found)
    let found ←
      (if max_right > start_idx then do
         let r ← walk_max s start end_ fuel max_right min_right found
         pure r.2
       else if min_right < start_idx then
         walk_min s start end_ (i : Int) fuel min_right found
       else pure found)
    pure ({ s with last_q_start := start }, found)

deriving instance DecidableEq for Except

/-- A caller that makes the calls `add(start, end, value)` of a list in turn,
catches the exception of a call that throws, and goes on with the next call;
the result is the object after the last call. -/
def run_adds {T : Type} (s : SIntersect T) : List (Int × Int × T) → SIntersect T
  | [] => s
  | (a, b, v) :: rest => run_adds (add s a b v).state rest

/-- Whether every call of the list returns (none throws). -/
def all_returned {T : Type} (s : SIntersect T) : List (Int × Int × T) → Bool
  | [] => true
  | (a, b, v) :: rest => !(add s a b v).failed && all_returned (add s a b v).state rest

/-- The life cycle up to the first query: a fresh object, the calls of `add`,
then `index()`. -/
def build {T : Type} (calls : List (Int × Int × T)) : Except Fault (SIntersect T) :=
  index (run_adds (SIntersect.new T) calls)

/-- The life cycle with a `clear()`: build, `clear()`, the same calls of `add`
again, `index()` again. -/
def rebuild {T : Type} (calls : List (Int × Int × T)) : Except Fault (SIntersect T) := do
  let s ← build calls
  index (run_adds (clear s) calls)

/-- A caller that issues the queries of a list in turn, each with an empty
output vector, and hands back the object after the last one. -/
def run_queries {T : Type} (fuel : Nat) (s : SIntersect T) :
    List (Int × Int) → Except Fault (SIntersect T)
  | [] => .ok s
  | (qs, qe) :: rest => do
    let r ← search_overlap fuel s qs qe []
    run_queries fuel r.1 rest

/-- The content of `found` after the query `(qs, qe)` on `s`. -/
def query {T : Type} (fuel : Nat) (s : SIntersect T) (qs qe : Int) : Except Fault (List Nat) := do
  let r ← search_overlap fuel s qs qe []
  pure r.2

/-- The content of `found` after the query `(qs, qe)` issued on a freshly built
and indexed object once the queries `earlier` have been answered. -/
def query_after {T : Type} (fuel : Nat) (calls : List (Int × Int × T))
    (earlier : List (Int × Int)) (qs qe : Int) : Except Fault (List Nat) := do
  let s ← build calls
  let s ← run_queries fuel s earlier
  query fuel s qs qe

/-- The overlap of the closed ranges `[qs, qe]` and `[s, e]`, as the
specification words it: `max(qs, s) ≤ min(qe, e)`. -/
def overlaps (qs qe s e : Int) : Prop :=
  max qs s ≤ min qe e

instance (qs qe s e : Int) : Decidable (overlaps qs qe s e) := by
  unfold overlaps
  infer_instance

/-- The store `(0,0), (0,1), (0,1), (0,1)` after `index()`: in `branch_right`
the entries of 1, 2 and 3 form the cycle `3 → 2 → 1 → 3`. -/
def cyclic_store : SIntersect Unit :=
  { starts := [0, 0, 0, 0], ends := [0, 1, 1, 1],
    intervals := [⟨0, 0⟩, ⟨0, 1⟩, ⟨0, 1⟩, ⟨0, 1⟩],
    branch_left := [-1, 3, 3, 2], branch_right := [3, 3, 1, 2],
    data := [(), (), (), ()], distance_threshold := 50000, idx := 0, n_intervals := 4,
    last_q_start := 0, isSorted := true, COUNTER := 0 }

/-- The run `x` returns, and what it returns satisfies `Q`. -/
def Returns {α : Type} (Q : α → Prop) : Except Fault α → Prop
  | .ok a => Q a
  | .error _ => False

/-- The run `x` stays inside its vectors (it returns, or it runs out of hops),
and what it returns satisfies `Q`. -/
def InRange {α : Type} (Q : α → Prop) : Except Fault α → Prop
  | .ok a => Q a
  | .error e => e = .out_of_fuel

/-- The shape of an indexed object holding `n` intervals: the arrays and both
tables have length `n`, `n_intervals` is `n`, and no table entry is `n` or
more. -/
def TablesOk {T : Type} (s : SIntersect T) (n : Nat) : Prop :=
  s.intervals.length = n ∧ s.starts.length = n ∧ s.n_intervals = n ∧
    s.branch_left.length = n ∧ s.branch_right.length = n ∧
    (∀ x ∈ s.branch_left, x < (n : Int)) ∧ (∀ x ∈ s.branch_right, x < (n : Int))

/-- Position `x` holds an interval of `intervals`, and that interval overlaps
the query `[qs, qe]`. -/
def Hit (intervals : List siInterval) (qs qe : Int) (x : Nat) : Prop :=
  x < intervals.length ∧ ∃ itv, intervals[x]? = some itv ∧ overlaps qs qe itv.start itv.end_

/-- The object after `add(a, b, v)` on a fresh object and `index()`. -/
def single_store {T : Type} (a b : Int) (v : T) : SIntersect T :=
  { starts := [a], ends := [b], intervals := [⟨a, b⟩], branch_left := [],
    branch_right := [], data := [v], distance_threshold := 50000, idx := 0,
    n_intervals := 1, last_q_start := S_min, isSorted := true, COUNTER := 0 }

/-- What the run `x` returns, if it returns, satisfies `Q`. -/
def WhenOk {α : Type} (Q : α → Prop) : Except Fault α → Prop
  | .ok a => Q a
  | .error _ => True

/-- Whatever the run `x` returns, the run `y` returns too. -/
def Extends {α : Type} (x y : Except Fault α) : Prop :=
  ∀ r, x = .ok r → y = .ok r

/-- The store of the first worked example (`tests/bench.cpp`, second case). -/
def worked_example_1 : List (Int × Int × Unit) :=
  [(1, 2, ()), (3, 8, ()), (5, 7, ()), (7, 20, ()), (9, 10, ()), (13, 15, ()), (15, 16, ()),
   (19, 30, ()), (22, 24, ()), (24, 25, ()), (26, 28, ()), (32, 39, ()), (34, 36, ()),
   (38, 40, ())]

/-- The store of the second worked example (`tests/bench.cpp`, third case). -/
def worked_example_2 : List (Int × Int × Unit) :=
  [(0, 250000000, ()), (55, 1055, ()), (115, 1115, ()), (130, 1130, ()), (281, 1281, ()),
   (639, 1639, ()), (842, 1842, ()), (999, 1999, ()), (1094, 2094, ()), (1157, 2157, ()),
   (1161, 2161, ()), (1265, 2265, ()), (1532, 2532, ()), (1590, 2590, ()), (1665, 2665, ()),
   (1945, 2945, ()), (2384, 3384, ()), (2515, 3515, ())]

/-- The specification's right class of interval `i`: the other intervals `j`
that overlap `i` and have `end > ends[i]`. -/
def right_class (intervals : List siInterval) (i j : Nat) : Bool :=
  match intervals[i]?, intervals[j]? with
  | some a, some b =>
    decide (j ≠ i) && decide (max a.start b.start ≤ min a.end_ b.end_) && decide (b.end_ > a.end_)
  | _, _ => false

/-- The specification's left class of interval `i`: the other intervals `j`
that overlap `i` and have `end ≤ ends[i]`. -/
def left_class (intervals : List siInterval) (i j : Nat) : Bool :=
  match intervals[i]?, intervals[j]? with
  | some a, some b =>
    decide (j ≠ i) && decide (max a.start b.start ≤ min a.end_ b.end_) && decide (b.end_ ≤ a.end_)
  | _, _ => false

/-- The largest index below `n` that satisfies `p`, and `-1` when there is
none. -/
def largest_index (p : Nat → Bool) (n : Nat) : Int :=
  match ((List.range n).filter p).getLast? with
  | some j => (j : Int)
  | none => -1

/-- The specification's `branch_right[i]`: the right-class neighbour of `i`
with the largest start, ties to the larger index; on a start-sorted store, the
largest index of the right class; `-1` when the class is empty. -/
def spec_branch_right (intervals : List siInterval) (i : Nat) : Int :=
  largest_index (right_class intervals i) intervals.length

/-- The specification's `branch_left[i]`: the left-class neighbour of `i` with
the largest start, ties to the larger index; on a start-sorted store, the
largest index of the left class; `-1` when the class is empty. -/
def spec_branch_left (intervals : List siInterval) (i : Nat) : Int :=
  largest_index (left_class intervals i) intervals.length

/-- The object after `add(s, e0, v0)`, `add(s, e1, v1)` on a fresh object and
`index()`, for `s ≤ e0 < e1`. -/
def coincident_store {T : Type} (s e0 e1 : Int) (v0 v1 : T) : SIntersect T :=
  { starts := [s, s], ends := [e0, e1], intervals := [⟨s, e0⟩, ⟨s, e1⟩],
    branch_left := [-1, 0], branch_right := [1, -1], data := [v0, v1],
    distance_threshold := 50000, idx := 0, n_intervals := 2, last_q_start := s,
    isSorted := true, COUNTER := 0 }

/-- The entries of a neighbour table `tbl` over `intervals`: each is `-1`, or
the index of another interval that overlaps the interval of its position and
stands in the relation `R` to it. -/
def NeighbourOk (R : siInterval → siInterval → Prop) (intervals : List siInterval)
    (tbl : List Int) : Prop :=
  ∀ (k : Nat) (x : Int), tbl[k]? = some x →
    x = -1 ∨ (0 ≤ x ∧ x.toNat ≠ k ∧ ∃ a b, intervals[k]? = some a ∧
      intervals[x.toNat]? = some b ∧ overlaps a.start a.end_ b.start b.end_ ∧ R a b)

/-- The neighbour does not end before the interval. -/
def ends_no_earlier (a b : siInterval) : Prop := a.end_ ≤ b.end_

/-- The neighbour does not end after the interval. -/
def ends_no_later (a b : siInterval) : Prop := b.end_ ≤ a.end_

/-- The neighbour ends after the interval. -/
def ends_later (a b : siInterval) : Prop := a.end_ < b.end_

/-- The number of stored intervals that end after `e`. -/
def later_ends (intervals : List siInterval) (e : Int) : Nat :=
  intervals.countP (fun c => decide (e < c.end_))

/-- Where a walk along the table `tbl` stands after `k` hops from `x`: a hop
goes from an index to its table entry; a walk that has met a negative entry
stays there. -/
def follow (tbl : List Int) : Nat → Int → Int
  | 0, x => x
  | k + 1, x => if x < 0 then x else follow tbl k (tbl.getD x.toNat (-1))

end sortedIntersect

namespace sortedIntersect

/-! ## Evaluations at concrete stores -/

/-- C1 (completeness), evaluated: on the store `(0,3), (1,2), (2,4)`, built on a
fresh object and indexed, the first query `(3, 3)` returns `found = [2]`,
although interval 0 = `(0, 3)` overlaps `[3, 3]`: an overlapping index is
missing from the result. -/
theorem search_overlap_misses_overlap :
    query_after 10 [(0, 3, ()), (1, 2, ()), (2, 4, ())] [] 3 3 = .ok [2] ∧
      overlaps 3 3 0 3 ∧ 0 ∉ [2] :=
  ⟨by decide!, by decide, by decide⟩

/-- C3 (no duplicates), evaluated: on the store `(0,0), (1,3), (2,5), (3,4)`,
built on a fresh object and indexed, the first query `(1, 2)` returns
`found = [2, 1, 2]`: index 2 is reported by the backward sweep and again by the
walk along `branch_right`. -/
theorem search_overlap_reports_twice :
    query_after 10 [(0, 0, ()), (1, 3, ()), (2, 5, ()), (3, 4, ())] [] 1 2 = .ok [2, 1, 2] ∧
      ¬ [2, 1, 2].Nodup :=
  ⟨by decide!, by decide⟩

/-- C4 (cursor independence), evaluated: on the store `(1,1), (1,1), (1,1)` the
query `(0, 1)` returns the indices `{0, 2}` as first query and `{0, 1, 2}` when
the query `(0, 2)` was answered before it. -/
theorem search_overlap_depends_on_cursor :
    query_after 10 [(1, 1, ()), (1, 1, ()), (1, 1, ())] [] 0 1 = .ok [0, 2] ∧
      query_after 10 [(1, 1, ()), (1, 1, ()), (1, 1, ())] [(0, 2)] 0 1 = .ok [2, 1, 0] ∧
      1 ∉ [0, 2] ∧ 1 ∈ [2, 1, 0] :=
  ⟨by decide!, by decide!, by decide, by decide⟩

theorem build_cyclic_store :
    build [(0, 0, ()), (0, 1, ()), (0, 1, ()), (0, 1, ())] = .ok cyclic_store := by
  decide!

theorem walk_max_cyclic_store (fuel : Nat) :
    ∀ (m mn : Int) (found : List Nat), m = 1 ∨ m = 2 ∨ m = 3 →
      walk_max cyclic_store 0 0 fuel m mn found = .error .out_of_fuel := by
  induction fuel with
  | zero =>
    intro m mn found hm
    unfold walk_max
    rcases hm with h | h | h <;> subst h <;> rfl
  | succ k ih =>
    intro m mn found hm
    unfold walk_max
    rcases hm with h | h | h <;> subst h
    · exact ih 3 _ _ (by decide)
    · exact ih 1 _ _ (by decide)
    · exact ih 2 _ _ (by decide)

theorem search_cyclic_store (fuel : Nat) :
    search_overlap fuel cyclic_store 0 0 [] =
      ((walk_max cyclic_store 0 0 fuel 3 3 [0]).bind (fun r => .ok r.2)).bind
        (fun found => .ok ({ cyclic_store with last_q_start := 0 }, found)) := by
  rfl

/-- C5 (termination), evaluated: on the store `(0,0), (0,1), (0,1), (0,1)`,
built on a fresh object and indexed, the first query `(0, 0)` enters the loop
`while (max_right >= 0)` at index 3 and never leaves it, whatever number of
hops it is given: `branch_right` sends 3 to 2, 2 to 1 and 1 to 3. -/
theorem search_overlap_walk_never_ends (fuel : Nat) :
    query_after fuel [(0, 0, ()), (0, 1, ()), (0, 1, ()), (0, 1, ())] [] 0 0 =
      .error .out_of_fuel := by
  unfold query_after
  rw [build_cyclic_store]
  show query fuel cyclic_store 0 0 = _
  unfold query
  rw [search_cyclic_store, walk_max_cyclic_store fuel 3 3 [0] (by decide)]
  rfl


/-! ## The builder -/

theorem add_none {T : Type} (s : SIntersect T) (a b : Int) (v : T)
    (h : s.intervals.getLast? = none) :
    add s a b v = .returned { s with
      intervals := s.intervals ++ [⟨a, b⟩], data := s.data ++ [v],
      starts := s.starts ++ [a], ends := s.ends ++ [b] } := by
  unfold add
  rw [h]

theorem add_some_lt {T : Type} (s : SIntersect T) (a b : Int) (v : T) (back : siInterval)
    (h : s.intervals.getLast? = some back) (hlt : a < back.start) :
    add s a b v = .threw { s with isSorted := false } := by
  unfold add
  rw [h]
  simp [hlt]

theorem add_some_ge {T : Type} (s : SIntersect T) (a b : Int) (v : T) (back : siInterval)
    (h : s.intervals.getLast? = some back) (hge : ¬ a < back.start) :
    add s a b v = .returned { s with
      intervals := s.intervals ++ [⟨a, b⟩], data := s.data ++ [v],
      starts := s.starts ++ [a], ends := s.ends ++ [b] } := by
  unfold add
  rw [h]
  simp [hge]

/-- The three ways a call of `add` can go. -/
theorem add_cases {T : Type} (s : SIntersect T) (a b : Int) (v : T) :
    ((∃ back, s.intervals.getLast? = some back ∧ a < back.start) ∧
        add s a b v = .threw { s with isSorted := false }) ∨
      ((¬ ∃ back, s.intervals.getLast? = some back ∧ a < back.start) ∧
        add s a b v = .returned { s with
          intervals := s.intervals ++ [⟨a, b⟩], data := s.data ++ [v],
          starts := s.starts ++ [a], ends := s.ends ++ [b] }) := by
  cases h : s.intervals.getLast? with
  | none =>
    right
    exact ⟨by simp, add_none s a b v h⟩
  | some back =>
    by_cases hlt : a < back.start
    · left
      exact ⟨⟨back, rfl, hlt⟩, add_some_lt s a b v back h hlt⟩
    · right
      refine ⟨?_, add_some_ge s a b v back h hlt⟩
      rintro ⟨back2, h2, hlt2⟩
      cases h2
      exact hlt hlt2

/-- C6: `add(start, end, v)` throws exactly when the store is not empty and
`start < intervals.back().start`; when it throws, the object is as before the
call but for `isSorted`, which is false: `intervals`, `starts`, `ends` and
`data` are untouched. -/
theorem add_throws_iff {T : Type} (s : SIntersect T) (a b : Int) (v : T) :
    ((add s a b v).failed = true ↔
        (s.intervals ≠ [] ∧ ∃ back, s.intervals.getLast? = some back ∧ a < back.start)) ∧
      ((add s a b v).failed = true →
        (add s a b v).state = { s with isSorted := false } ∧
        (add s a b v).state.intervals = s.intervals ∧
        (add s a b v).state.starts = s.starts ∧
        (add s a b v).state.ends = s.ends ∧
        (add s a b v).state.data = s.data ∧
        (add s a b v).state.isSorted = false) := by
  rcases add_cases s a b v with ⟨hex, hadd⟩ | ⟨hex, hadd⟩
  · rw [hadd]
    refine ⟨⟨fun _ => ⟨?_, hex⟩, fun _ => rfl⟩, fun _ => ⟨rfl, rfl, rfl, rfl, rfl, rfl⟩⟩
    rcases hex with ⟨back, hb, _⟩
    intro hnil
    rw [hnil] at hb
    cases hb
  · rw [hadd]
    refine ⟨⟨fun h => ?_, fun h => absurd h.2 hex⟩, fun h => ?_⟩
    · cases h
    · cases h

theorem add_throws_iff_witness :
    (add (add (SIntersect.new Unit) 5 6 ()).state 3 4 ()).failed = true ∧
      (add (add (SIntersect.new Unit) 5 6 ()).state 3 4 ()).state.starts = [5] :=
  ⟨by decide,
   ((add_throws_iff (add (SIntersect.new Unit) 5 6 ()).state 3 4 ()).2 (by decide)).2.2.1⟩


/-- What a call of `add` that returns does to the object. -/
theorem add_returned {T : Type} (s : SIntersect T) (a b : Int) (v : T)
    (h : (add s a b v).failed = false) :
    (add s a b v).state = { s with
      intervals := s.intervals ++ [⟨a, b⟩], data := s.data ++ [v],
      starts := s.starts ++ [a], ends := s.ends ++ [b] } := by
  rcases add_cases s a b v with ⟨_, hadd⟩ | ⟨_, hadd⟩
  · rw [hadd] at h
    cases h
  · rw [hadd]
    rfl

/-- Calls of `add` that all return: the arrays grow by the number of calls, the
index tables stay. -/
theorem run_adds_returned {T : Type} (calls : List (Int × Int × T)) :
    ∀ s : SIntersect T, all_returned s calls = true →
      (run_adds s calls).intervals.length = s.intervals.length + calls.length ∧
      (run_adds s calls).starts.length = s.starts.length + calls.length ∧
      (run_adds s calls).ends.length = s.ends.length + calls.length ∧
      (run_adds s calls).data.length = s.data.length + calls.length ∧
      (run_adds s calls).branch_left = s.branch_left ∧
      (run_adds s calls).branch_right = s.branch_right := by
  induction calls with
  | nil =>
    intro s _
    simp [run_adds]
  | cons c rest ih =>
    intro s h
    obtain ⟨a, b, v⟩ := c
    simp only [all_returned, Bool.and_eq_true, Bool.not_eq_true'] at h
    have hs := add_returned s a b v h.1
    have := ih (add s a b v).state h.2
    simp only [run_adds, List.length_cons]
    rw [hs] at this ⊢
    simp only [List.length_append, List.length_singleton] at this
    refine ⟨?_, ?_, ?_, ?_, this.2.2.2.2.1, this.2.2.2.2.2⟩
    · omega
    · omega
    · omega
    · omega

/-- C7: a call `add(start, end, v)` that returns appends one record and does
nothing else: `intervals`, `starts`, `ends` and `data` get `(start, end)`,
`start`, `end` and `v` at the end, every other member (`branch_left`,
`branch_right`, `idx`, `last_q_start`, `n_intervals`, ...) is as before, and
`size()` grows by one; so after `k` returning calls on a fresh object the four
arrays have length `k`, `size()` is `k` and both index tables are empty. -/
theorem add_returns_appends (T : Type) :
    (∀ (s : SIntersect T) (a b : Int) (v : T), (add s a b v).failed = false →
        (add s a b v).state = { s with
          intervals := s.intervals ++ [⟨a, b⟩], data := s.data ++ [v],
          starts := s.starts ++ [a], ends := s.ends ++ [b] } ∧
        size (add s a b v).state = size s + 1) ∧
      (∀ calls : List (Int × Int × T), all_returned (SIntersect.new T) calls = true →
        (run_adds (SIntersect.new T) calls).intervals.length = calls.length ∧
        (run_adds (SIntersect.new T) calls).starts.length = calls.length ∧
        (run_adds (SIntersect.new T) calls).ends.length = calls.length ∧
        (run_adds (SIntersect.new T) calls).data.length = calls.length ∧
        size (run_adds (SIntersect.new T) calls) = calls.length ∧
        (run_adds (SIntersect.new T) calls).branch_left = [] ∧
        (run_adds (SIntersect.new T) calls).branch_right = []) := by
  constructor
  · intro s a b v h
    have hs := add_returned s a b v h
    refine ⟨hs, ?_⟩
    rw [hs]
    simp [size]
  · intro calls h
    have := run_adds_returned calls (SIntersect.new T) h
    simp only [SIntersect.new, List.length_nil, Nat.zero_add] at this
    exact ⟨this.1, this.2.1, this.2.2.1, this.2.2.2.1, this.1, this.2.2.2.2.1, this.2.2.2.2.2⟩

theorem add_returns_appends_witness :
    size (add (SIntersect.new Unit) 1 2 ()).state = 1 ∧
      (run_adds (SIntersect.new Unit) [(1, 2, ()), (3, 4, ())]).starts.length = 2 ∧
      (run_adds (SIntersect.new Unit) [(1, 2, ()), (3, 4, ())]).branch_right = [] :=
  ⟨((add_returns_appends Unit).1 (SIntersect.new Unit) 1 2 () (by decide)).2,
   ((add_returns_appends Unit).2 [(1, 2, ()), (3, 4, ())] (by decide)).2.1,
   ((add_returns_appends Unit).2 [(1, 2, ()), (3, 4, ())] (by decide)).2.2.2.2.2.2⟩

/-- The invariant of the builder: sorted by start, and `starts`, `ends` are the
projections of `intervals`. -/
theorem add_keeps_sorted {T : Type} (s : SIntersect T) (a b : Int) (v : T)
    (h : List.Chain' (fun x y : siInterval => x.start ≤ y.start) s.intervals ∧
      s.starts = s.intervals.map (fun x => x.start) ∧
      s.ends = s.intervals.map (fun x => x.end_)) :
    List.Chain' (fun x y : siInterval => x.start ≤ y.start) (add s a b v).state.intervals ∧
      (add s a b v).state.starts = (add s a b v).state.intervals.map (fun x => x.start) ∧
      (add s a b v).state.ends = (add s a b v).state.intervals.map (fun x => x.end_) := by
  rcases add_cases s a b v with ⟨_, hadd⟩ | ⟨hex, hadd⟩
  · rw [hadd]
    exact h
  · rw [hadd]
    simp only [AddResult.state, List.map_append, List.map_cons, List.map_nil]
    refine ⟨?_, by rw [h.2.1], by rw [h.2.2]⟩
    refine List.Chain'.append h.1 (List.chain'_singleton _) ?_
    intro x hx y hy
    simp only [List.head?_cons, Option.mem_def, Option.some.injEq] at hy
    subst hy
    by_contra hlt
    exact hex ⟨x, hx, by simpa using hlt⟩

theorem run_adds_keeps_sorted {T : Type} (calls : List (Int × Int × T)) :
    ∀ s : SIntersect T,
      (List.Chain' (fun x y : siInterval => x.start ≤ y.start) s.intervals ∧
        s.starts = s.intervals.map (fun x => x.start) ∧
        s.ends = s.intervals.map (fun x => x.end_)) →
      List.Chain' (fun x y : siInterval => x.start ≤ y.start) (run_adds s calls).intervals ∧
        (run_adds s calls).starts = (run_adds s calls).intervals.map (fun x => x.start) ∧
        (run_adds s calls).ends = (run_adds s calls).intervals.map (fun x => x.end_) := by
  induction calls with
  | nil =>
    intro s h
    exact h
  | cons c rest ih =>
    intro s h
    obtain ⟨a, b, v⟩ := c
    exact ih _ (add_keeps_sorted s a b v h)

/-- Neighbours of a chain, by position. -/
theorem chain_getElem? {α : Type} (R : α → α → Prop) (l : List α) (h : List.Chain' R l)
    (i : Nat) (x y : α) (hx : l[i]? = some x) (hy : l[i + 1]? = some y) : R x y := by
  rw [List.chain'_iff_get] at h
  have hi : i + 1 < l.length := by
    rcases List.getElem?_eq_some_iff.1 hy with ⟨hlt, _⟩
    exact hlt
  have := h i (by omega)
  rcases List.getElem?_eq_some_iff.1 hx with ⟨h1, e1⟩
  rcases List.getElem?_eq_some_iff.1 hy with ⟨h2, e2⟩
  simp only [List.get_eq_getElem] at this
  rw [e1, e2] at this
  exact this

/-- C8: after any sequence of calls of `add` on a fresh object, returning or
throwing, the stored sequence is sorted by start
(`intervals[i].start ≤ intervals[i+1].start` for every valid `i`), and `starts`
and `ends` are its projections (`starts[i] = intervals[i].start`,
`ends[i] = intervals[i].end`, same lengths). -/
theorem builder_invariant (T : Type) (calls : List (Int × Int × T)) :
    (∀ (i : Nat) (x y : siInterval),
        (run_adds (SIntersect.new T) calls).intervals[i]? = some x →
        (run_adds (SIntersect.new T) calls).intervals[i + 1]? = some y →
        x.start ≤ y.start) ∧
      (run_adds (SIntersect.new T) calls).starts =
        (run_adds (SIntersect.new T) calls).intervals.map (fun x => x.start) ∧
      (run_adds (SIntersect.new T) calls).ends =
        (run_adds (SIntersect.new T) calls).intervals.map (fun x => x.end_) := by
  have h := run_adds_keeps_sorted calls (SIntersect.new T)
    ⟨by simp [SIntersect.new], by simp [SIntersect.new], by simp [SIntersect.new]⟩
  exact ⟨fun i x y hx hy => chain_getElem? _ _ h.1 i x y hx hy, h.2.1, h.2.2⟩

theorem builder_invariant_witness :
    (3 : Int) ≤ 5 ∧
      (run_adds (SIntersect.new Unit) [(3, 9, ()), (1, 2, ()), (5, 6, ())]).starts = [3, 5] :=
  ⟨(builder_invariant Unit [(3, 9, ()), (1, 2, ()), (5, 6, ())]).1 0 ⟨3, 9⟩ ⟨5, 6⟩
      (by decide) (by decide),
   (builder_invariant Unit [(3, 9, ()), (1, 2, ()), (5, 6, ())]).2.1⟩


/-! ## `clear()` -/

/-- C9 (`clear()` gives back the state before any `add`), evaluated: on a fresh
object loaded with `(1,5), (3,4)` and indexed, `clear()` empties `intervals` and
`data` and resets `idx` and `last_q_start`, but `starts`, `ends`, `branch_left`
and `branch_right` keep their content (and `n_intervals` stays 2). -/
theorem clear_keeps_starts_ends_tables :
    (build [(1, 5, ()), (3, 4, ())]).map clear =
      .ok { starts := [1, 3], ends := [5, 4], intervals := [],
            branch_left := [1, -1], branch_right := [-1, 0], data := [],
            distance_threshold := 50000, idx := 0, n_intervals := 2,
            last_q_start := S_min, isSorted := true, COUNTER := 0 } := by
  decide!

/-- C10 (round trip after `clear()`), evaluated: for the store `(0,0), (0,0)`
the query `(0, 1)` returns `{0, 1}` on the object built once; after `clear()`
and a second load of the same two intervals `starts` holds four elements for
two intervals, `index()` returns, and the same query, whatever number of hops
it is given, moves `idx` to 3 and reads `branch_left[3]` in a table of two
entries. -/
theorem round_trip_after_clear_out_of_range (fuel : Nat) :
    query_after fuel [(0, 0, ()), (0, 0, ())] [] 0 1 = .ok [1, 0] ∧
      (rebuild [(0, 0, ()), (0, 0, ())]).map (fun s => (s.starts, s.intervals.length)) =
        .ok ([0, 0, 0, 0], 2) ∧
      (do let s ← rebuild [(0, 0, ()), (0, 0, ())]
          query fuel s 0 1) = .error .out_of_range := by
  refine ⟨?_, by decide!, ?_⟩
  · rfl
  · rfl


/-! ## Runs that return, runs that stay in range -/

theorem returns_iff {α : Type} (Q : α → Prop) (x : Except Fault α) :
    Returns Q x ↔ ∃ a, x = .ok a ∧ Q a := by
  cases x with
  | ok a => simp [Returns]
  | error e => simp [Returns]

theorem returns_bind {α β : Type} {Q : α → Prop} {R : β → Prop} {x : Except Fault α}
    {f : α → Except Fault β} (hx : Returns Q x) (hf : ∀ a, Q a → Returns R (f a)) :
    Returns R (x >>= f) := by
  cases x with
  | ok a => exact hf a hx
  | error e => exact hx.elim

theorem inRange_bind {α β : Type} {Q : α → Prop} {R : β → Prop} {x : Except Fault α}
    {f : α → Except Fault β} (hx : InRange Q x) (hf : ∀ a, Q a → InRange R (f a)) :
    InRange R (x >>= f) := by
  cases x with
  | ok a => exact hf a hx
  | error e => exact hx

theorem Returns.inRange {α : Type} {Q : α → Prop} {x : Except Fault α} (hx : Returns Q x) :
    InRange Q x := by
  cases x with
  | ok a => exact hx
  | error e => exact hx.elim

theorem returns_mono {α : Type} {Q R : α → Prop} {x : Except Fault α} (hx : Returns Q x)
    (h : ∀ a, Q a → R a) : Returns R x := by
  cases x with
  | ok a => exact h a hx
  | error e => exact hx.elim

theorem inRange_mono {α : Type} {Q R : α → Prop} {x : Except Fault α} (hx : InRange Q x)
    (h : ∀ a, Q a → R a) : InRange R x := by
  cases x with
  | ok a => exact h a hx
  | error e => exact hx

/-! ## Vector accesses in range -/

theorem vget_returns {α : Type} (v : List α) (i : Nat) (h : i < v.length) :
    Returns (fun x => v[i]? = some x ∧ x ∈ v) (vget v i) := by
  unfold vget
  rw [List.getElem?_eq_getElem h]
  exact ⟨rfl, List.getElem_mem h⟩

theorem vgetl_returns {α : Type} (v : List α) (i : Int) (h0 : 0 ≤ i) (h : i < (v.length : Int)) :
    Returns (fun x => v[i.toNat]? = some x ∧ x ∈ v) (vgetl v i) := by
  unfold vgetl
  rw [if_neg (by omega)]
  exact vget_returns v i.toNat (by omega)

theorem vset_returns {α : Type} (v : List α) (i : Nat) (x : α) (h : i < v.length) :
    Returns (fun w => w = v.set i x) (vset v i x) := by
  unfold vset
  rw [if_pos h]
  rfl

/-- A table stays in shape when an entry below `n` is written. -/
theorem set_keeps_bound (tbl : List Int) (n : Nat) (k : Nat) (x : Int) (hx : x < (n : Int))
    (h : ∀ y ∈ tbl, y < (n : Int)) : ∀ y ∈ tbl.set k x, y < (n : Int) := by
  intro y hy
  rcases List.mem_or_eq_of_mem_set hy with h1 | h1
  · exact h y h1
  · rw [h1]
    exact hx

theorem improves_returns (intervals : List siInterval) (tbl : List Int) (n k : Nat)
    (qStart : Int) (hi : intervals.length = n) (hl : tbl.length = n)
    (hb : ∀ y ∈ tbl, y < (n : Int)) (hk : k < n) :
    Returns (fun _ => True) (improves intervals tbl k qStart) := by
  unfold improves
  refine returns_bind (vget_returns tbl k (by omega)) ?_
  intro cur hcur
  by_cases hneg : cur < 0
  · rw [if_pos hneg]
    trivial
  · rw [if_neg hneg]
    refine returns_bind (vgetl_returns intervals cur (by omega) ?_) ?_
    · rw [hi]
      exact hb cur hcur.2
    · intro c _
      trivial

/-- One guarded table update of `index()`: the table keeps its length and its
bound. -/
theorem guarded_set_returns (tbl : List Int) (n k : Nat) (x : Int) (c : Prop) [Decidable c]
    (hl : tbl.length = n) (hb : ∀ y ∈ tbl, y < (n : Int)) (hk : k < n) (hx : x < (n : Int)) :
    Returns (fun t => t.length = n ∧ ∀ y ∈ t, y < (n : Int))
      (if c then vset tbl k x else pure tbl) := by
  by_cases hc : c
  · rw [if_pos hc]
    refine returns_mono (vset_returns tbl k x (by omega)) ?_
    intro t ht
    rw [ht]
    exact ⟨by simp [hl], set_keeps_bound tbl n k x hx hb⟩
  · rw [if_neg hc]
    exact ⟨hl, hb⟩


/-! ## `index()` returns and leaves both tables in shape -/

theorem index_inner_returns {T : Type} (i n : Nat) (a b : Int) (hi : i < n) :
    ∀ (m : Nat) (s : SIntersect T), m ≤ n → TablesOk s n →
      Returns (fun r => TablesOk r n ∧ r.intervals = s.intervals ∧ r.idx = s.idx)
        (index_inner i a b m s) := by
  intro m
  induction m with
  | zero =>
    intro s _ hs
    unfold index_inner
    exact ⟨hs, rfl, rfl⟩
  | succ j ih =>
    intro s hm hs
    unfold index_inner
    by_cases hij : i = j
    · rw [if_pos hij]
      exact ih s (by omega) hs
    · rw [if_neg hij]
      obtain ⟨h1, h2, h3, h4, h5, h6, h7⟩ := hs
      refine returns_bind (vget_returns s.intervals j (by omega)) ?_
      intro q _
      dsimp only
      by_cases hov : is_overlapping a b q.start q.end_ = true
      · rw [if_pos hov]
        by_cases hgt : q.end_ > b
        · rw [if_pos hgt]
          refine returns_bind
            (improves_returns s.intervals s.branch_right n i q.start h1 h5 h7 hi) ?_
          intro c1 _
          refine returns_bind
            (guarded_set_returns s.branch_right n i j (c1 = true) h5 h7 hi (by omega)) ?_
          intro br hbr
          refine returns_bind
            (improves_returns s.intervals s.branch_left n j q.start h1 h4 h6 (by omega)) ?_
          intro c2 _
          refine returns_bind
            (guarded_set_returns s.branch_left n j i (c2 = true) h4 h6 (by omega) (by omega)) ?_
          intro bl hbl
          exact ih _ (by omega) ⟨h1, h2, h3, hbl.1, hbr.1, hbl.2, hbr.2⟩
        · rw [if_neg hgt]
          refine returns_bind
            (improves_returns s.intervals s.branch_left n i q.start h1 h4 h6 hi) ?_
          intro c1 _
          refine returns_bind
            (guarded_set_returns s.branch_left n i j (c1 = true) h4 h6 hi (by omega)) ?_
          intro bl hbl
          refine returns_bind
            (improves_returns s.intervals s.branch_right n j q.start h1 h5 h7 (by omega)) ?_
          intro c2 _
          by_cases hc2 : c2 = true
          · rw [if_pos hc2]
            refine returns_bind (vget_returns s.branch_right i (by omega)) ?_
            intro bri _
            refine returns_bind
              (guarded_set_returns s.branch_right n i (-1) (bri = (j : Int)) h5 h7 hi
                (by omega)) ?_
            intro br hbr
            refine returns_bind (vset_returns br j (i : Int) (by omega)) ?_
            intro br2 hbr2
            refine ih _ (by omega) ⟨h1, h2, h3, hbl.1, ?_, hbl.2, ?_⟩
            · rw [hbr2]
              simp [hbr.1]
            · rw [hbr2]
              exact set_keeps_bound br n j i (by omega) hbr.2
          · rw [if_neg hc2]
            exact ih _ (by omega) ⟨h1, h2, h3, hbl.1, h5, hbl.2, h7⟩
      · rw [if_neg hov]
        exact ⟨⟨h1, h2, h3, h4, h5, h6, h7⟩, rfl, rfl⟩


theorem lower_bound_loop_bounds (v : List Int) (val : Int) :
    ∀ (fuel first len : Nat),
      first ≤ lower_bound_loop v val fuel first len ∧
        lower_bound_loop v val fuel first len ≤ first + len := by
  intro fuel
  induction fuel with
  | zero =>
    intro first len
    unfold lower_bound_loop
    omega
  | succ k ih =>
    intro first len
    unfold lower_bound_loop
    by_cases hlen : len = 0
    · rw [if_pos hlen]
      omega
    · rw [if_neg hlen]
      dsimp only
      have hhalf : len / 2 < len := Nat.div_lt_self (by omega) (by decide)
      by_cases hlt : v.getD (first + len / 2) 0 < val
      · rw [if_pos hlt]
        have := ih (first + len / 2 + 1) (len - len / 2 - 1)
        omega
      · rw [if_neg hlt]
        have := ih first (len / 2)
        omega

theorem lower_bound_bounds (v : List Int) (first last : Nat) (val : Int) (h : first ≤ last) :
    first ≤ lower_bound v first last val ∧ lower_bound v first last val ≤ last := by
  unfold lower_bound
  have := lower_bound_loop_bounds v val (last - first) first (last - first)
  omega

/-- The cursor after `_binary_search` is a valid position of a non-empty
`starts`; nothing else changes. -/
theorem binary_search_returns {T : Type} (s : SIntersect T) (pos : Int)
    (hidx : s.idx ≤ s.starts.length) (hpos : 0 < s.starts.length) :
    Returns (fun r => ∃ k, k < s.starts.length ∧ r = { s with idx := k })
      (_binary_search s pos) := by
  unfold _binary_search
  rw [if_neg (by omega)]
  dsimp only
  have h1 := lower_bound_bounds s.starts s.idx s.starts.length pos hidx
  have h2 := lower_bound_bounds s.starts 0 s.idx pos (Nat.zero_le _)
  refine ⟨_, ?_, rfl⟩
  split_ifs <;> omega

theorem index_outer_returns {T : Type} (n : Nat) :
    ∀ (k : Nat) (s : SIntersect T), k ≤ n → TablesOk s n → s.idx < n →
      Returns (fun r => TablesOk r n ∧ r.intervals = s.intervals ∧ r.idx < n)
        (index_outer k s) := by
  intro k
  induction k with
  | zero =>
    intro s _ hs hidx
    unfold index_outer
    exact ⟨hs, rfl, hidx⟩
  | succ i ih =>
    intro s hk hs hidx
    unfold index_outer
    have hs0 := hs
    obtain ⟨h1, h2, h3, h4, h5, h6, h7⟩ := hs
    refine returns_bind (vget_returns s.intervals i (by omega)) ?_
    intro itv _
    dsimp only
    refine returns_bind (binary_search_returns s itv.end_ (by omega) (by omega)) ?_
    rintro s1 ⟨j, hj, rfl⟩
    refine returns_bind
      (index_inner_returns i n itv.start itv.end_ (by omega) (j + 1)
        { s with idx := j, last_q_start := itv.start } (by omega)
        ⟨h1, h2, h3, h4, h5, h6, h7⟩) ?_
    rintro s2 ⟨hs2, hint, hidx2⟩
    refine returns_mono (ih s2 (by omega) hs2 ?_) ?_
    · rw [hidx2]
      dsimp only
      omega
    · rintro r ⟨hr, hri, hrx⟩
      exact ⟨hr, by rw [hri, hint], hrx⟩

theorem resize_nil_length (n : Nat) (x : Int) : (resize ([] : List Int) n x).length = n := by
  simp [resize]

theorem resize_nil_mem (n : Nat) (x y : Int) (h : y ∈ resize ([] : List Int) n x) : y = x := by
  simp only [resize, List.take_nil, List.length_nil, Nat.sub_zero, List.nil_append] at h
  exact List.eq_of_mem_replicate h

/-- On an object whose `starts` is as long as `intervals`, with at least two
intervals, `index()` returns and leaves tables of the right shape. -/
theorem index_returns {T : Type} (s : SIntersect T) (hlen : s.starts.length = s.intervals.length)
    (hn : 2 ≤ s.intervals.length) (htab : s.branch_left = [] → s.branch_right = []) :
    Returns (fun r => TablesOk r s.intervals.length ∧ r.intervals = s.intervals ∧ r.idx = 0)
      (index s) := by
  unfold index
  dsimp only
  rw [if_neg (by omega)]
  by_cases hne : s.branch_left ≠ []
  · rw [if_pos hne]
    dsimp only
    refine returns_bind (index_outer_returns s.intervals.length s.intervals.length _
      (Nat.le_refl _) ⟨rfl, hlen, rfl, resize_nil_length _ _, resize_nil_length _ _, ?_, ?_⟩
      (by dsimp only; omega)) ?_
    · intro x hx
      rw [resize_nil_mem _ _ _ hx]
      omega
    · intro x hx
      rw [resize_nil_mem _ _ _ hx]
      omega
    · rintro r ⟨hr, hri, _⟩
      exact ⟨hr, hri, rfl⟩
  · rw [if_neg hne]
    have hbl : s.branch_left = [] := by
      by_contra h
      exact hne h
    have hbr : s.branch_right = [] := htab hbl
    dsimp only
    rw [hbl, hbr]
    refine returns_bind (index_outer_returns s.intervals.length s.intervals.length _
      (Nat.le_refl _) ⟨rfl, hlen, rfl, resize_nil_length _ _, resize_nil_length _ _, ?_, ?_⟩
      (by dsimp only; omega)) ?_
    · intro x hx
      rw [resize_nil_mem _ _ _ hx]
      omega
    · intro x hx
      rw [resize_nil_mem _ _ _ hx]
      omega
    · rintro r ⟨hr, hri, _⟩
      exact ⟨hr, hri, rfl⟩


/-! ## `search_overlap` reports only overlapping intervals -/

theorem hit_of_overlapping (intervals : List siInterval) (qs qe : Int) (x : Nat)
    (itv : siInterval) (hx : intervals[x]? = some itv)
    (ho : is_overlapping_interval qs qe itv = true) : Hit intervals qs qe x := by
  refine ⟨?_, itv, hx, ?_⟩
  · exact (List.getElem?_eq_some_iff.1 hx).1
  · simpa [is_overlapping_interval, overlaps] using ho

theorem hit_append (intervals : List siInterval) (qs qe : Int) (found : List Nat) (x : Nat)
    (hf : ∀ y ∈ found, Hit intervals qs qe y) (hx : Hit intervals qs qe x) :
    ∀ y ∈ found ++ [x], Hit intervals qs qe y := by
  intro y hy
  rcases List.mem_append.1 hy with h | h
  · exact hf y h
  · rw [List.mem_singleton.1 h]
    exact hx

theorem sweep_free_returns {T : Type} (s : SIntersect T) (n : Nat) (qs qe : Int)
    (hs : TablesOk s n) :
    ∀ (i : Nat) (mx mn : Int) (found : List Nat), i < n → mx < (n : Int) →
      (∀ y ∈ found, Hit s.intervals qs qe y) →
      Returns (fun r => r.1 ≤ i ∧ r.2.1 < (n : Int) ∧ ∀ y ∈ r.2.2.2, Hit s.intervals qs qe y)
        (sweep_free s qs qe i mx mn found) := by
  obtain ⟨h1, h2, h3, h4, h5, h6, h7⟩ := hs
  intro i
  induction i with
  | zero =>
    intro mx mn found _ hmx hf
    unfold sweep_free
    exact ⟨Nat.le_refl _, hmx, hf⟩
  | succ i ih =>
    intro mx mn found hi hmx hf
    unfold sweep_free
    refine returns_bind (vget_returns s.branch_right (i + 1) (by omega)) ?_
    intro br hbr
    by_cases hge : br ≥ 0
    · rw [if_pos hge]
      refine ⟨Nat.le_refl _, ?_, hf⟩
      have := h7 br hbr.2
      exact max_lt hmx this
    · rw [if_neg hge]
      refine returns_bind (vget_returns s.intervals (i + 1) (by omega)) ?_
      intro itv hitv
      by_cases ho : is_overlapping_interval qs qe itv = true
      · rw [if_pos ho]
        refine returns_mono (ih mx mn _ (by omega) hmx
          (hit_append _ _ _ _ _ hf (hit_of_overlapping _ _ _ _ itv hitv.1 ho))) ?_
        rintro r ⟨hr1, hr2, hr3⟩
        exact ⟨by omega, hr2, hr3⟩
      · rw [if_neg ho]
        by_cases hend : itv.end_ < qs
        · rw [if_pos hend]
          exact ⟨Nat.le_refl _, hmx, hf⟩
        · rw [if_neg hend]
          refine returns_mono (ih mx mn _ (by omega) hmx hf) ?_
          rintro r ⟨hr1, hr2, hr3⟩
          exact ⟨by omega, hr2, hr3⟩

theorem sweep_anchored_returns {T : Type} (s : SIntersect T) (n : Nat) (qs qe : Int)
    (hs : TablesOk s n) :
    ∀ (i : Nat) (found : List Nat), i < n →
      (∀ y ∈ found, Hit s.intervals qs qe y) →
      Returns (fun r => r.1 ≤ i ∧ ∀ y ∈ r.2, Hit s.intervals qs qe y)
        (sweep_anchored s qs qe i found) := by
  obtain ⟨h1, h2, h3, h4, h5, h6, h7⟩ := hs
  intro i
  induction i with
  | zero =>
    intro found _ hf
    unfold sweep_anchored
    exact ⟨Nat.le_refl _, hf⟩
  | succ i ih =>
    intro found hi hf
    unfold sweep_anchored
    refine returns_bind (vget_returns s.intervals (i + 1) (by omega)) ?_
    intro itv hitv
    by_cases ho : is_overlapping_interval qs qe itv = true
    · rw [if_pos ho]
      refine returns_mono (ih _ (by omega)
        (hit_append _ _ _ _ _ hf (hit_of_overlapping _ _ _ _ itv hitv.1 ho))) ?_
      rintro r ⟨hr1, hr2⟩
      exact ⟨by omega, hr2⟩
    · rw [if_neg ho]
      by_cases hend : itv.end_ < qs
      · rw [if_pos hend]
        exact ⟨Nat.le_refl _, hf⟩
      · rw [if_neg hend]
        refine returns_mono (ih _ (by omega) hf) ?_
        rintro r ⟨hr1, hr2⟩
        exact ⟨by omega, hr2⟩

theorem walk_max_inRange {T : Type} (s : SIntersect T) (n : Nat) (qs qe : Int)
    (hs : TablesOk s n) :
    ∀ (fuel : Nat) (mx mn : Int) (found : List Nat), mx < (n : Int) →
      (∀ y ∈ found, Hit s.intervals qs qe y) →
      InRange (fun r => ∀ y ∈ r.2, Hit s.intervals qs qe y)
        (walk_max s qs qe fuel mx mn found) := by
  obtain ⟨h1, h2, h3, h4, h5, h6, h7⟩ := hs
  intro fuel
  induction fuel with
  | zero =>
    intro mx mn found hmx hf
    unfold walk_max
    by_cases hneg : mx < 0
    · rw [if_pos hneg]
      exact hf
    · rw [if_neg hneg]
      rfl
  | succ k ih =>
    intro mx mn found hmx hf
    unfold walk_max
    by_cases hneg : mx < 0
    · rw [if_pos hneg]
      exact hf
    · rw [if_neg hneg]
      dsimp only
      refine inRange_bind (vgetl_returns s.intervals mx (by omega) (by omega)).inRange ?_
      intro itv hitv
      refine inRange_bind (vgetl_returns s.branch_right mx (by omega) (by omega)).inRange ?_
      intro next hnext
      have hnb := h7 next hnext.2
      by_cases ho : is_overlapping_interval qs qe itv = true
      · rw [if_pos ho]
        exact ih next _ _ hnb
          (hit_append _ _ _ _ _ hf (hit_of_overlapping _ _ _ _ itv hitv.1 ho))
      · rw [if_neg ho]
        exact ih next _ _ hnb hf

theorem walk_min_inRange {T : Type} (s : SIntersect T) (n : Nat) (qs qe : Int) (i_right : Int)
    (hs : TablesOk s n) (hi : i_right ≤ (n : Int)) :
    ∀ (fuel : Nat) (mn : Int) (found : List Nat),
      (∀ y ∈ found, Hit s.intervals qs qe y) →
      InRange (fun r => ∀ y ∈ r, Hit s.intervals qs qe y)
        (walk_min s qs qe i_right fuel mn found) := by
  obtain ⟨h1, h2, h3, h4, h5, h6, h7⟩ := hs
  intro fuel
  induction fuel with
  | zero =>
    intro mn found hf
    unfold walk_min
    by_cases hc : mn ≥ 0 ∧ mn < i_right
    · rw [if_pos hc]
      rfl
    · rw [if_neg hc]
      exact hf
  | succ k ih =>
    intro mn found hf
    unfold walk_min
    by_cases hc : mn ≥ 0 ∧ mn < i_right
    · rw [if_pos hc]
      dsimp only
      refine inRange_bind (vgetl_returns s.intervals mn (by omega) (by omega)).inRange ?_
      intro itv hitv
      refine inRange_bind (vgetl_returns s.branch_right mn (by omega) (by omega)).inRange ?_
      intro next _
      by_cases ho : is_overlapping_interval qs qe itv = true
      · rw [if_pos ho]
        exact ih next _ (hit_append _ _ _ _ _ hf (hit_of_overlapping _ _ _ _ itv hitv.1 ho))
      · rw [if_neg ho]
        exact ih next _ hf
    · rw [if_neg hc]
      exact hf


/-- A query on an indexed object of `n ≥ 1` intervals with tables in shape
never leaves its vectors; when it returns, the object is still in shape, the
cursor is a valid position, and every reported index is a hit. -/
theorem search_overlap_inRange {T : Type} (s : SIntersect T) (n : Nat) (fuel : Nat)
    (qs qe : Int) (out0 : List Nat) (hs : TablesOk s n) (hn : 0 < n) (hidx : s.idx ≤ n) :
    InRange (fun r => TablesOk r.1 n ∧ r.1.idx < n ∧ r.1.intervals = s.intervals ∧
        ∀ y ∈ r.2, Hit s.intervals qs qe y)
      (search_overlap fuel s qs qe out0) := by
  have hs0 := hs
  obtain ⟨h1, h2, h3, h4, h5, h6, h7⟩ := hs
  unfold search_overlap
  rw [if_neg (by omega)]
  have hclear : (if out0 ≠ [] then [] else out0) = ([] : List Nat) := by
    by_cases h : out0 = []
    · rw [if_neg (by simpa using h), h]
    · rw [if_pos h]
  dsimp only
  rw [hclear]
  refine inRange_bind (binary_search_returns s qe (by omega) (by omega)).inRange ?_
  rintro s1 ⟨k, hk, rfl⟩
  have hs1 : TablesOk { s with idx := k } n := ⟨h1, h2, h3, h4, h5, h6, h7⟩
  dsimp only
  refine inRange_bind (vget_returns s.branch_left k (by omega)).inRange ?_
  intro bl hbl
  refine inRange_bind (vget_returns s.branch_right k (by omega)).inRange ?_
  intro mr hmr
  have hblb := h6 bl hbl.2
  have hmrb := h7 mr hmr.2
  refine inRange_bind (Q := fun _ => True) ?_ ?_
  · by_cases hge : bl ≥ 0
    · rw [if_pos hge]
      refine (returns_bind (vgetl_returns s.intervals bl (by omega) (by omega)) ?_).inRange
      intro b _
      trivial
    · rw [if_neg hge]
      trivial
  intro cond _
  have hstart : (if cond = true then max bl (k : Int) else (k : Int)) < (n : Int) ∧
      0 ≤ (if cond = true then max bl (k : Int) else (k : Int)) := by
    by_cases hc : cond = true
    · rw [if_pos hc]
      exact ⟨max_lt hblb (by omega), le_trans (by omega) (le_max_right _ _)⟩
    · rw [if_neg hc]
      omega
  generalize (if cond = true then max bl (k : Int) else (k : Int)) = start_idx at hstart
  refine inRange_bind
    (Q := fun r => r.1 < n ∧ r.2.1 < (n : Int) ∧ ∀ y ∈ r.2.2.2, Hit s.intervals qs qe y) ?_ ?_
  · by_cases hneg : mr < 0
    · rw [if_pos hneg]
      refine (returns_mono (sweep_free_returns { s with idx := k } n qs qe hs1 start_idx.toNat
        mr _ [] (by omega) hmrb (by simp)) ?_).inRange
      rintro r ⟨hr1, hr2, hr3⟩
      exact ⟨by omega, hr2, hr3⟩
    · rw [if_neg hneg]
      exact ⟨by dsimp only; omega, hmrb, by simp⟩
  rintro ⟨i, mx, mn, found⟩ ⟨hi, hmx, hfound⟩
  dsimp only at hi hmx hfound ⊢
  refine inRange_bind
    (Q := fun r => r.1 < n ∧ ∀ y ∈ r.2, Hit s.intervals qs qe y) ?_ ?_
  · by_cases hge : mx ≥ 0
    · rw [if_pos hge]
      refine (returns_mono (sweep_anchored_returns { s with idx := k } n qs qe hs1 i found
        hi hfound) ?_).inRange
      rintro r ⟨hr1, hr2⟩
      exact ⟨by omega, hr2⟩
    · rw [if_neg hge]
      exact ⟨hi, hfound⟩
  rintro ⟨i2, found2⟩ ⟨hi2, hfound2⟩
  dsimp only at hi2 hfound2 ⊢
  refine inRange_bind (Q := fun r => ∀ y ∈ r, Hit s.intervals qs qe y) ?_ ?_
  · by_cases hz : i2 = 0
    · rw [if_pos hz]
      refine (returns_bind (vget_returns s.intervals i2 (by omega)) ?_).inRange
      intro itv hitv
      by_cases ho : is_overlapping_interval qs qe itv = true
      · show ∀ y ∈ (if is_overlapping_interval qs qe itv = true then found2 ++ [i2] else found2),
          Hit s.intervals qs qe y
        rw [if_pos ho]
        exact hit_append _ _ _ _ _ hfound2 (hit_of_overlapping _ _ _ _ itv hitv.1 ho)
      · show ∀ y ∈ (if is_overlapping_interval qs qe itv = true then found2 ++ [i2] else found2),
          Hit s.intervals qs qe y
        rw [if_neg ho]
        exact hfound2
    · rw [if_neg hz]
      exact hfound2
  intro found3 hfound3
  refine inRange_bind (Q := fun r => ∀ y ∈ r, Hit s.intervals qs qe y) ?_ ?_
  · by_cases hgt : mx > start_idx
    · rw [if_pos hgt]
      refine inRange_bind
        (walk_max_inRange { s with idx := k } n qs qe hs1 fuel mx mn found3 hmx hfound3) ?_
      intro r hr
      exact hr
    · rw [if_neg hgt]
      by_cases hlt : mn < start_idx
      · rw [if_pos hlt]
        exact walk_min_inRange { s with idx := k } n qs qe (i2 : Int) hs1 (by omega) fuel mn
          found3 hfound3
      · rw [if_neg hlt]
        exact hfound3
  intro found4 hfound4
  exact ⟨⟨h1, h2, h3, h4, h5, h6, h7⟩, hk.trans_le (by omega), rfl, hfound4⟩

theorem run_queries_inRange {T : Type} (n : Nat) (fuel : Nat) (hn : 0 < n) :
    ∀ (earlier : List (Int × Int)) (s : SIntersect T), TablesOk s n → s.idx ≤ n →
      InRange (fun r => TablesOk r n ∧ r.idx ≤ n ∧ r.intervals = s.intervals)
        (run_queries fuel s earlier) := by
  intro earlier
  induction earlier with
  | nil =>
    intro s hs hidx
    unfold run_queries
    exact ⟨hs, hidx, rfl⟩
  | cons q rest ih =>
    intro s hs hidx
    obtain ⟨qs, qe⟩ := q
    unfold run_queries
    refine inRange_bind (search_overlap_inRange s n fuel qs qe [] hs hn hidx) ?_
    rintro r ⟨hr1, hr2, hr3, _⟩
    refine inRange_mono (ih r.1 hr1 (by omega)) ?_
    rintro r2 ⟨h1, h2, h3⟩
    exact ⟨h1, h2, by rw [h3, hr3]⟩


theorem inRange_iff {α : Type} (Q : α → Prop) (x : Except Fault α) :
    InRange Q x ↔ x ≠ .error .out_of_range ∧ ∀ a, x = .ok a → Q a := by
  cases x with
  | ok a =>
    constructor
    · intro h
      refine ⟨by simp, ?_⟩
      intro b hb
      cases hb
      exact h
    · intro h
      exact h.2 a rfl
  | error e =>
    constructor
    · intro h
      have he : e = .out_of_fuel := h
      subst he
      exact ⟨by simp, by simp⟩
    · intro h
      cases e with
      | out_of_range => exact absurd rfl h.1
      | out_of_fuel => rfl

/-- Calls of `add` never touch the index tables. -/
theorem run_adds_tables {T : Type} (calls : List (Int × Int × T)) :
    ∀ s : SIntersect T, (run_adds s calls).branch_left = s.branch_left ∧
      (run_adds s calls).branch_right = s.branch_right := by
  induction calls with
  | nil =>
    intro s
    exact ⟨rfl, rfl⟩
  | cons c rest ih =>
    intro s
    obtain ⟨a, b, v⟩ := c
    have h := ih (add s a b v).state
    simp only [run_adds]
    rcases add_cases s a b v with ⟨_, hadd⟩ | ⟨_, hadd⟩
    · rw [hadd] at h ⊢
      exact h
    · rw [hadd] at h ⊢
      exact h

/-- The object loaded on a fresh engine is ready for `index()`: `starts` and
`ends` run parallel to `intervals`, and both tables are empty. -/
theorem run_adds_fresh {T : Type} (calls : List (Int × Int × T)) :
    (run_adds (SIntersect.new T) calls).starts =
        (run_adds (SIntersect.new T) calls).intervals.map (fun x => x.start) ∧
      (run_adds (SIntersect.new T) calls).ends =
        (run_adds (SIntersect.new T) calls).intervals.map (fun x => x.end_) ∧
      (run_adds (SIntersect.new T) calls).branch_left = [] ∧
      (run_adds (SIntersect.new T) calls).branch_right = [] := by
  have h := run_adds_keeps_sorted calls (SIntersect.new T)
    ⟨by simp [SIntersect.new], by simp [SIntersect.new], by simp [SIntersect.new]⟩
  have ht := run_adds_tables calls (SIntersect.new T)
  exact ⟨h.2.1, h.2.2, ht.1, ht.2⟩

/-- C2 (soundness): take any sequence of calls of `add` on a fresh object that
leaves `n ≥ 2` intervals in the store (the store is then sorted by start), and
call `index()`.  Then `index()` returns, and for every list of earlier queries
and every query `(qs, qe)` with any initial content of `out`: no run reads or
writes outside a vector, and when `search_overlap(qs, qe, out)` returns, every
element `i` of `out` is a valid index `i < n` with
`max(qs, starts[i]) ≤ min(qe, ends[i])`. -/
theorem search_overlap_sound (T : Type) (calls : List (Int × Int × T))
    (hn : 2 ≤ size (run_adds (SIntersect.new T) calls)) :
    ∃ s0, build calls = .ok s0 ∧
      ∀ (fuel1 fuel2 : Nat) (earlier : List (Int × Int)) (qs qe : Int) (out0 : List Nat),
        run_queries fuel1 s0 earlier ≠ .error .out_of_range ∧
        ∀ s1, run_queries fuel1 s0 earlier = .ok s1 →
          search_overlap fuel2 s1 qs qe out0 ≠ .error .out_of_range ∧
          ∀ s2 out, search_overlap fuel2 s1 qs qe out0 = .ok (s2, out) →
            ∀ i ∈ out, i < size (run_adds (SIntersect.new T) calls) ∧
              ∃ a b, (run_adds (SIntersect.new T) calls).starts[i]? = some a ∧
                (run_adds (SIntersect.new T) calls).ends[i]? = some b ∧
                overlaps qs qe a b := by
  obtain ⟨hst, hen, hbl, hbr⟩ := run_adds_fresh calls
  have hlen : (run_adds (SIntersect.new T) calls).starts.length =
      (run_adds (SIntersect.new T) calls).intervals.length := by
    rw [hst, List.length_map]
  have hidx := index_returns (run_adds (SIntersect.new T) calls) hlen hn (fun _ => hbr)
  rcases (returns_iff _ _).1 hidx with ⟨s0, hs0, htab, hint, hzero⟩
  refine ⟨s0, hs0, ?_⟩
  intro fuel1 fuel2 earlier qs qe out0
  have hpos : 0 < (run_adds (SIntersect.new T) calls).intervals.length := by
    unfold size at hn
    omega
  have hq := run_queries_inRange _ fuel1 hpos earlier s0 htab (by omega)
  rcases (inRange_iff _ _).1 hq with ⟨hq1, hq2⟩
  refine ⟨hq1, ?_⟩
  intro s1 hs1
  obtain ⟨ht1, hi1, hint1⟩ := hq2 s1 hs1
  have hso := search_overlap_inRange s1 _ fuel2 qs qe out0 ht1 hpos hi1
  rcases (inRange_iff _ _).1 hso with ⟨hso1, hso2⟩
  refine ⟨hso1, ?_⟩
  intro s2 out hout i hi
  obtain ⟨_, _, _, hhit⟩ := hso2 (s2, out) hout
  obtain ⟨hlt, itv, hitv, hov⟩ := hhit i hi
  rw [hint1, hint] at hitv hlt
  refine ⟨hlt, itv.start, itv.end_, ?_, ?_, hov⟩
  · rw [hst, List.getElem?_map, hitv]
    rfl
  · rw [hen, List.getElem?_map, hitv]
    rfl

theorem search_overlap_sound_witness :
    2 ≤ size (run_adds (SIntersect.new Unit)
        [(10, 20, ()), (11, 12, ()), (13, 14, ()), (15, 16, ()), (25, 29, ())]) ∧
      query_after 10 [(10, 20, ()), (11, 12, ()), (13, 14, ()), (15, 16, ()), (25, 29, ())]
        [] 17 30 = .ok [4, 0] ∧
      ∃ s0, build [(10, 20, ()), (11, 12, ()), (13, 14, ()), (15, 16, ()), (25, 29, ())] =
          .ok s0 ∧
        ∀ (fuel1 fuel2 : Nat) (earlier : List (Int × Int)) (qs qe : Int) (out0 : List Nat),
          run_queries fuel1 s0 earlier ≠ .error .out_of_range ∧
          ∀ s1, run_queries fuel1 s0 earlier = .ok s1 →
            search_overlap fuel2 s1 qs qe out0 ≠ .error .out_of_range ∧
            ∀ s2 out, search_overlap fuel2 s1 qs qe out0 = .ok (s2, out) →
              ∀ i ∈ out, i < size (run_adds (SIntersect.new Unit)
                  [(10, 20, ()), (11, 12, ()), (13, 14, ()), (15, 16, ()), (25, 29, ())]) ∧
                ∃ a b, (run_adds (SIntersect.new Unit)
                    [(10, 20, ()), (11, 12, ()), (13, 14, ()), (15, 16, ()), (25, 29, ())]).starts[i]?
                      = some a ∧
                  (run_adds (SIntersect.new Unit)
                    [(10, 20, ()), (11, 12, ()), (13, 14, ()), (15, 16, ()), (25, 29, ())]).ends[i]?
                      = some b ∧
                  overlaps qs qe a b :=
  ⟨by decide, by decide!,
   search_overlap_sound Unit
     [(10, 20, ()), (11, 12, ()), (13, 14, ()), (15, 16, ()), (25, 29, ())] (by decide)⟩

/-! ## Queries on an object that is not indexed -/

/-- Calls of `add` never touch the cursor nor `n_intervals`. -/
theorem run_adds_cursor {T : Type} (calls : List (Int × Int × T)) :
    ∀ s : SIntersect T, (run_adds s calls).idx = s.idx ∧
      (run_adds s calls).n_intervals = s.n_intervals ∧
      (run_adds s calls).last_q_start = s.last_q_start := by
  induction calls with
  | nil =>
    intro s
    exact ⟨rfl, rfl, rfl⟩
  | cons c rest ih =>
    intro s
    obtain ⟨a, b, v⟩ := c
    have h := ih (add s a b v).state
    simp only [run_adds]
    rcases add_cases s a b v with ⟨_, hadd⟩ | ⟨_, hadd⟩
    · rw [hadd] at h ⊢
      exact h
    · rw [hadd] at h ⊢
      exact h

/-- C11: when `n_intervals = 0`, `search_overlap(qs, qe, out)` returns at once:
`out` and every member of the object are as before the call.  This is the
case of an object that was loaded by `add` but never indexed (a fresh object
included), and of an empty store after `index()`. -/
theorem search_overlap_unindexed (T : Type) :
    (∀ (s : SIntersect T) (fuel : Nat) (qs qe : Int) (out : List Nat), s.n_intervals = 0 →
        search_overlap fuel s qs qe out = .ok (s, out)) ∧
      (∀ calls : List (Int × Int × T), (run_adds (SIntersect.new T) calls).n_intervals = 0) ∧
      (∀ s : SIntersect T, s.intervals = [] →
        index s = .ok { s with n_intervals := 0 }) := by
  refine ⟨?_, ?_, ?_⟩
  · intro s fuel qs qe out h
    unfold search_overlap
    rw [if_pos h]
  · intro calls
    exact (run_adds_cursor calls (SIntersect.new T)).2.1
  · intro s h
    unfold index
    simp [h]

theorem search_overlap_unindexed_witness :
    search_overlap 5 (run_adds (SIntersect.new Unit) [(1, 2, ()), (3, 4, ())]) 0 100 [7, 8] =
      .ok (run_adds (SIntersect.new Unit) [(1, 2, ()), (3, 4, ())], [7, 8]) :=
  (search_overlap_unindexed Unit).1 _ 5 0 100 [7, 8]
    ((search_overlap_unindexed Unit).2.1 [(1, 2, ()), (3, 4, ())])

/-- C12, as stated, fails: on a fresh object (empty store, `n_intervals = 0`)
the query `(0, 100)` entered with `out = [7]` returns with `out = [7]`, not with
the empty `out` it returns when entered with `out = []`. -/
theorem out_kept_when_unindexed :
    (search_overlap 5 (SIntersect.new Unit) 0 100 [7]).map Prod.snd = .ok [7] ∧
      (search_overlap 5 (SIntersect.new Unit) 0 100 []).map Prod.snd = .ok [] := by
  decide!

/-- C12, amended: when `n_intervals > 0`, `out` is cleared on entry, so the call
gives what it gives when entered with an empty `out`; when `n_intervals = 0`
the call returns before the clear and `out` keeps its initial content. -/
theorem out_cleared_when_indexed (T : Type) (s : SIntersect T) (fuel : Nat) (qs qe : Int)
    (out0 : List Nat) :
    (s.n_intervals ≠ 0 →
        search_overlap fuel s qs qe out0 = search_overlap fuel s qs qe []) ∧
      (s.n_intervals = 0 → search_overlap fuel s qs qe out0 = .ok (s, out0)) := by
  constructor
  · intro h
    have hclear : (if out0 ≠ [] then [] else out0) = ([] : List Nat) := by
      by_cases h0 : out0 = []
      · rw [if_neg (by simpa using h0), h0]
      · rw [if_pos h0]
    unfold search_overlap
    rw [if_neg h, if_neg h]
    dsimp only
    rw [hclear]
    simp
  · intro h
    unfold search_overlap
    rw [if_pos h]

theorem out_cleared_when_indexed_witness :
    search_overlap 5 cyclic_store 1 1 [9, 9] = search_overlap 5 cyclic_store 1 1 [] ∧
      search_overlap 5 (SIntersect.new Unit) 0 100 [7] = .ok (SIntersect.new Unit, [7]) :=
  ⟨(out_cleared_when_indexed Unit cyclic_store 5 1 1 [9, 9]).1 (by decide),
   (out_cleared_when_indexed Unit (SIntersect.new Unit) 5 0 100 [7]).2 (by decide)⟩

/-! ## A store of one interval -/

theorem build_single {T : Type} (a b : Int) (v : T) :
    build [(a, b, v)] = .ok (single_store a b v) := by
  rfl

/-- C13, evaluated at `n = 1`: on a fresh object holding one interval,
whatever its bounds, `index()` sets `n_intervals = 1` and returns before the
tables are sized; `branch_left` and `branch_right` have length 0, not 1. -/
theorem index_single_leaves_tables_empty (T : Type) (a b : Int) (v : T) :
    build [(a, b, v)] =
      .ok { starts := [a], ends := [b], intervals := [⟨a, b⟩], branch_left := [],
            branch_right := [], data := [v], distance_threshold := 50000, idx := 0,
            n_intervals := 1, last_q_start := S_min, isSorted := true, COUNTER := 0 } := by
  rfl

/-- A query on an object with `n_intervals > 0` and an empty `branch_left`
reads `branch_left[idx]` outside the table. -/
theorem search_overlap_empty_table {T : Type} (s : SIntersect T) (fuel : Nat) (qs qe : Int)
    (out0 : List Nat) (hn : s.n_intervals ≠ 0) (hbl : s.branch_left = [])
    (hidx : s.idx ≤ s.starts.length) :
    search_overlap fuel s qs qe out0 = .error .out_of_range := by
  unfold search_overlap
  rw [if_neg hn]
  dsimp only
  cases hb : _binary_search s qe with
  | error e =>
    unfold _binary_search at hb
    rw [if_neg (by omega)] at hb
    cases hb
  | ok s1 =>
    have hs1 : s1.branch_left = [] := by
      unfold _binary_search at hb
      rw [if_neg (by omega)] at hb
      cases hb
      exact hbl
    show (vget s1.branch_left s1.idx >>= _) = _
    rw [hs1]
    rfl

/-- C15, evaluated: on a fresh object holding one interval `(a, b)`, indexed,
every query, whatever it is and whatever number of hops it is given, reads
`branch_left[0]` in an empty table; so do the three queries `(5,5)`, `(4,4)`,
`(5,6)` on the store `(5,5)`. -/
theorem search_overlap_single_out_of_range (T : Type) (a b : Int) (v : T) (fuel : Nat)
    (qs qe : Int) :
    query_after fuel [(a, b, v)] [] qs qe = .error .out_of_range := by
  unfold query_after
  rw [build_single]
  show query fuel (single_store a b v) qs qe = _
  unfold query
  rw [search_overlap_empty_table (single_store a b v) fuel qs qe [] (by simp [single_store]) rfl
    (by simp [single_store])]
  rfl

/-! ## What a query changes in the object -/

theorem whenOk_iff {α : Type} (Q : α → Prop) (x : Except Fault α) :
    WhenOk Q x ↔ ∀ a, x = .ok a → Q a := by
  cases x with
  | ok a =>
    constructor
    · intro h b hb
      cases hb
      exact h
    · intro h
      exact h a rfl
  | error e =>
    constructor
    · intro _ b hb
      cases hb
    · intro _
      trivial

theorem whenOk_bind {α β : Type} {R : β → Prop} {x : Except Fault α}
    {f : α → Except Fault β} (hf : ∀ a, WhenOk R (f a)) : WhenOk R (x >>= f) := by
  cases x with
  | ok a => exact hf a
  | error e => trivial

theorem returns_whenOk_bind {α β : Type} {Q : α → Prop} {R : β → Prop} {x : Except Fault α}
    {f : α → Except Fault β} (hx : Returns Q x) (hf : ∀ a, Q a → WhenOk R (f a)) :
    WhenOk R (x >>= f) := by
  cases x with
  | ok a => exact hf a hx
  | error e => exact hx.elim

/-- A query that returns on an object with `n_intervals > 0` has changed `idx`
and `last_q_start` and nothing else: `last_q_start` is the start of the query
and `idx` is a position of `starts`. -/
theorem search_overlap_frame {T : Type} (s : SIntersect T) (fuel : Nat) (qs qe : Int)
    (out0 : List Nat) (hn : s.n_intervals ≠ 0) (hidx : s.idx ≤ s.starts.length)
    (hpos : 0 < s.starts.length) :
    WhenOk (fun r => ∃ k, k < s.starts.length ∧ r.1 = { s with idx := k, last_q_start := qs })
      (search_overlap fuel s qs qe out0) := by
  unfold search_overlap
  rw [if_neg hn]
  dsimp only
  refine returns_whenOk_bind (binary_search_returns s qe hidx hpos) ?_
  rintro s1 ⟨k, hk, rfl⟩
  refine whenOk_bind ?_
  intro bl
  refine whenOk_bind ?_
  intro mr
  refine whenOk_bind ?_
  intro cond
  refine whenOk_bind ?_
  rintro ⟨i, mx, mn, found⟩
  refine whenOk_bind ?_
  rintro ⟨i2, found2⟩
  refine whenOk_bind ?_
  intro found3
  refine whenOk_bind ?_
  intro found4
  exact ⟨k, hk, rfl⟩

/-- Queries that return leave the arrays, the tables and `n_intervals` as they
were and the cursor at a position of `starts`. -/
theorem run_queries_frame {T : Type} (fuel : Nat) :
    ∀ (earlier : List (Int × Int)) (s : SIntersect T), s.n_intervals ≠ 0 →
      s.idx < s.starts.length →
      WhenOk (fun r => r.idx < r.starts.length ∧ r.starts = s.starts ∧
          r.intervals = s.intervals ∧ r.n_intervals = s.n_intervals ∧
          r.branch_left = s.branch_left ∧ r.branch_right = s.branch_right)
        (run_queries fuel s earlier) := by
  intro earlier
  induction earlier with
  | nil =>
    intro s _ hidx
    unfold run_queries
    exact ⟨hidx, rfl, rfl, rfl, rfl, rfl⟩
  | cons q rest ih =>
    intro s hn hidx
    obtain ⟨qs, qe⟩ := q
    unfold run_queries
    have hf := search_overlap_frame s fuel qs qe [] hn (by omega) (by omega)
    cases hso : search_overlap fuel s qs qe [] with
    | error e => trivial
    | ok r =>
      rw [hso] at hf
      obtain ⟨k, hk, hr⟩ := hf
      show WhenOk _ (run_queries fuel r.1 rest)
      have := ih r.1 (by rw [hr]; exact hn) (by rw [hr]; exact hk)
      rw [hr] at this ⊢
      exact this

/-- The object that `index()` hands back on a fresh load of at least one
interval. -/
theorem build_shape {T : Type} (calls : List (Int × Int × T))
    (hn : 1 ≤ size (run_adds (SIntersect.new T) calls)) :
    ∃ s0, build calls = .ok s0 ∧ s0.idx = 0 ∧
      s0.n_intervals = size (run_adds (SIntersect.new T) calls) ∧
      s0.starts.length = size (run_adds (SIntersect.new T) calls) ∧
      s0.intervals = (run_adds (SIntersect.new T) calls).intervals ∧
      (2 ≤ size (run_adds (SIntersect.new T) calls) →
        TablesOk s0 (size (run_adds (SIntersect.new T) calls))) := by
  obtain ⟨hst, hen, hbl, hbr⟩ := run_adds_fresh calls
  have hlen : (run_adds (SIntersect.new T) calls).starts.length =
      (run_adds (SIntersect.new T) calls).intervals.length := by
    rw [hst, List.length_map]
  have hcur := run_adds_cursor calls (SIntersect.new T)
  unfold size at hn ⊢
  by_cases h2 : 2 ≤ (run_adds (SIntersect.new T) calls).intervals.length
  · have hidx := index_returns (run_adds (SIntersect.new T) calls) hlen h2 (fun _ => hbr)
    rcases (returns_iff _ _).1 hidx with ⟨s0, hs0, htab, hint, hzero⟩
    exact ⟨s0, hs0, hzero, htab.2.2.1, htab.2.1, hint, fun _ => htab⟩
  · refine ⟨{ run_adds (SIntersect.new T) calls with
        n_intervals := (run_adds (SIntersect.new T) calls).intervals.length }, ?_, hcur.1, rfl,
      hlen, rfl, fun h => absurd h h2⟩
    unfold build index
    dsimp only
    rw [if_pos (by omega)]

/-- C14 (cursor bound): take any calls of `add` on a fresh object that leave
`n ≥ 1` intervals, then `index()`.  Then `index()` returns with
`idx < n_intervals = n`; after every sequence of queries that return,
`idx < n_intervals` still, so `intervals[idx]` is in bounds and, for `n ≥ 2`, so
are `branch_left[idx]` and `branch_right[idx]`; and the cursor that the next
`_binary_search` sets, the one `search_overlap` reads at, is below `n` too. -/
theorem cursor_in_bounds (T : Type) (calls : List (Int × Int × T))
    (hn : 1 ≤ size (run_adds (SIntersect.new T) calls)) :
    ∃ s0, build calls = .ok s0 ∧
      s0.n_intervals = size (run_adds (SIntersect.new T) calls) ∧
      s0.idx < s0.n_intervals ∧
      ∀ (fuel : Nat) (earlier : List (Int × Int)) (s1 : SIntersect T),
        run_queries fuel s0 earlier = .ok s1 →
          s1.n_intervals = size (run_adds (SIntersect.new T) calls) ∧
          s1.idx < s1.n_intervals ∧
          s1.idx < s1.intervals.length ∧
          (2 ≤ size (run_adds (SIntersect.new T) calls) →
            s1.idx < s1.branch_left.length ∧ s1.idx < s1.branch_right.length) ∧
          ∀ pos : Int, ∃ s2, _binary_search s1 pos = .ok s2 ∧ s2.idx < s1.n_intervals ∧
            s2.intervals = s1.intervals := by
  obtain ⟨s0, hs0, hzero, hnint, hslen, hint, htab⟩ := build_shape calls hn
  refine ⟨s0, hs0, hnint, by omega, ?_⟩
  intro fuel earlier s1 hs1
  have hf := (whenOk_iff _ _).1
    (run_queries_frame fuel earlier s0 (by omega) (by omega)) s1 hs1
  obtain ⟨h1, h2, h3, h4, h5, h6⟩ := hf
  have hilen : s1.intervals.length = size (run_adds (SIntersect.new T) calls) := by
    rw [h3, hint]
    rfl
  refine ⟨by omega, by rw [h2] at h1; omega, by rw [h2] at h1; omega, ?_, ?_⟩
  · intro h2n
    obtain ⟨_, _, _, t4, t5, _, _⟩ := htab h2n
    rw [h5, h6, t4, t5]
    rw [h2] at h1
    omega
  · intro pos
    have hb := binary_search_returns s1 pos (by omega) (by omega)
    rcases (returns_iff _ _).1 hb with ⟨s2, hs2, k, hk, rfl⟩
    refine ⟨_, hs2, ?_, rfl⟩
    show k < s1.n_intervals
    rw [h2] at hk
    omega

theorem cursor_in_bounds_witness :
    1 ≤ size (run_adds (SIntersect.new Unit) [(10, 20, ()), (10, 30, ())]) ∧
      (do let s0 ← build [(10, 20, ()), (10, 30, ())]
          let s1 ← run_queries 5 s0 [(15, 15), (0, 40)]
          pure s1.idx) = .ok 1 ∧
      ∃ s0, build [(10, 20, ()), (10, 30, ())] = .ok s0 ∧
        s0.n_intervals = size (run_adds (SIntersect.new Unit) [(10, 20, ()), (10, 30, ())]) ∧
        s0.idx < s0.n_intervals ∧
        ∀ (fuel : Nat) (earlier : List (Int × Int)) (s1 : SIntersect Unit),
          run_queries fuel s0 earlier = .ok s1 →
            s1.n_intervals = size (run_adds (SIntersect.new Unit) [(10, 20, ()), (10, 30, ())]) ∧
            s1.idx < s1.n_intervals ∧
            s1.idx < s1.intervals.length ∧
            (2 ≤ size (run_adds (SIntersect.new Unit) [(10, 20, ()), (10, 30, ())]) →
              s1.idx < s1.branch_left.length ∧ s1.idx < s1.branch_right.length) ∧
            ∀ pos : Int, ∃ s2, _binary_search s1 pos = .ok s2 ∧ s2.idx < s1.n_intervals ∧
              s2.intervals = s1.intervals :=
  ⟨by decide, by decide!,
   cursor_in_bounds Unit [(10, 20, ()), (10, 30, ())] (by decide)⟩

/-! ## More hops never change a result -/

theorem extends_refl {α : Type} (x : Except Fault α) : Extends x x :=
  fun _ h => h

theorem extends_bind {α β : Type} {x y : Except Fault α} {f g : α → Except Fault β}
    (hx : Extends x y) (hf : ∀ a, Extends (f a) (g a)) : Extends (x >>= f) (y >>= g) := by
  intro r h
  cases x with
  | error e => cases h
  | ok a =>
    rw [hx a rfl]
    exact hf a r h

theorem walk_max_more_fuel {T : Type} (s : SIntersect T) (qs qe : Int) (k : Nat) :
    ∀ (fuel : Nat) (mx mn : Int) (found : List Nat),
      Extends (walk_max s qs qe fuel mx mn found) (walk_max s qs qe (fuel + k) mx mn found) := by
  intro fuel
  induction fuel with
  | zero =>
    intro mx mn found r h
    unfold walk_max at h ⊢
    by_cases hneg : mx < 0
    · rw [if_pos hneg] at h ⊢
      exact h
    · rw [if_neg hneg] at h
      cases h
  | succ n ih =>
    intro mx mn found
    have hk : n + 1 + k = (n + k) + 1 := by omega
    rw [hk]
    unfold walk_max
    by_cases hneg : mx < 0
    · rw [if_pos hneg, if_pos hneg]
      exact extends_refl _
    · rw [if_neg hneg, if_neg hneg]
      dsimp only
      refine extends_bind (extends_refl _) ?_
      intro itv
      refine extends_bind (extends_refl _) ?_
      intro next
      by_cases ho : is_overlapping_interval qs qe itv = true
      · rw [if_pos ho, if_pos ho]
        exact ih _ _ _
      · rw [if_neg ho, if_neg ho]
        exact ih _ _ _

theorem walk_min_more_fuel {T : Type} (s : SIntersect T) (qs qe : Int) (i_right : Int)
    (k : Nat) :
    ∀ (fuel : Nat) (mn : Int) (found : List Nat),
      Extends (walk_min s qs qe i_right fuel mn found)
        (walk_min s qs qe i_right (fuel + k) mn found) := by
  intro fuel
  induction fuel with
  | zero =>
    intro mn found r h
    unfold walk_min at h ⊢
    by_cases hc : mn ≥ 0 ∧ mn < i_right
    · rw [if_pos hc] at h
      cases h
    · rw [if_neg hc] at h ⊢
      exact h
  | succ n ih =>
    intro mn found
    have hk : n + 1 + k = (n + k) + 1 := by omega
    rw [hk]
    unfold walk_min
    by_cases hc : mn ≥ 0 ∧ mn < i_right
    · rw [if_pos hc, if_pos hc]
      dsimp only
      refine extends_bind (extends_refl _) ?_
      intro itv
      refine extends_bind (extends_refl _) ?_
      intro next
      by_cases ho : is_overlapping_interval qs qe itv = true
      · rw [if_pos ho, if_pos ho]
        exact ih _ _
      · rw [if_neg ho, if_neg ho]
        exact ih _ _
    · rw [if_neg hc, if_neg hc]
      exact extends_refl _

/-- A query that returns with `fuel` hops returns the same with more. -/
theorem search_overlap_more_fuel {T : Type} (s : SIntersect T) (qs qe : Int)
    (out0 : List Nat) (fuel k : Nat) :
    Extends (search_overlap fuel s qs qe out0) (search_overlap (fuel + k) s qs qe out0) := by
  unfold search_overlap
  by_cases hn : s.n_intervals = 0
  · rw [if_pos hn, if_pos hn]
    exact extends_refl _
  · rw [if_neg hn, if_neg hn]
    dsimp only
    refine extends_bind (extends_refl _) ?_
    intro s1
    refine extends_bind (extends_refl _) ?_
    intro bl
    refine extends_bind (extends_refl _) ?_
    intro mr
    refine extends_bind (extends_refl _) ?_
    intro cond
    refine extends_bind (extends_refl _) ?_
    rintro ⟨i, mx, mn, found⟩
    refine extends_bind (extends_refl _) ?_
    rintro ⟨i2, found2⟩
    refine extends_bind (extends_refl _) ?_
    intro found3
    refine extends_bind ?_ (fun _ => extends_refl _)
    dsimp only
    split_ifs
    all_goals first
      | exact extends_bind (walk_max_more_fuel _ _ _ k fuel _ _ _) (fun _ => extends_refl _)
      | exact walk_min_more_fuel _ _ _ _ k fuel _ _
      | exact extends_refl _

/-- A first query that returns with `fuel` hops returns the same with more. -/
theorem query_after_more_fuel {T : Type} (calls : List (Int × Int × T)) (qs qe : Int)
    (fuel0 fuel : Nat) (r : List Nat) (hle : fuel0 ≤ fuel)
    (h : query_after fuel0 calls [] qs qe = .ok r) :
    query_after fuel calls [] qs qe = .ok r := by
  obtain ⟨k, rfl⟩ : ∃ k, fuel = fuel0 + k := ⟨fuel - fuel0, by omega⟩
  revert h
  unfold query_after
  refine extends_bind (extends_refl _) ?_ r
  intro s0
  unfold run_queries
  show Extends (query fuel0 s0 qs qe) (query (fuel0 + k) s0 qs qe)
  unfold query
  exact extends_bind (search_overlap_more_fuel s0 qs qe [] fuel0 k) (fun _ => extends_refl _)

/-! ## The worked examples -/

/-- C17 (worked example 1): on a fresh object loaded with the fourteen
intervals `(1,2), (3,8), ..., (38,40)` and indexed, the first query `(17, 21)`,
given one hop or more, returns `found = [7, 3]`, the index set `{3, 7}`. -/
theorem worked_example_one (fuel : Nat) (h : 1 ≤ fuel) :
    query_after fuel worked_example_1 [] 17 21 = .ok [7, 3] :=
  query_after_more_fuel worked_example_1 17 21 1 fuel [7, 3] h (by decide!)

theorem worked_example_one_witness :
    query_after 14 worked_example_1 [] 17 21 = .ok [7, 3] :=
  worked_example_one 14 (by decide)

/-- C18, as stated, fails: on the eighteen intervals of worked example 2 the
first query `(1377, 2377)` returns the indices `{0, 5, 6, ..., 15}`: index 5 is
reported and is not in the set `{0, 6, ..., 16}` of the claim, index 16 is in
that set and is not reported. -/
theorem worked_example_two_differs :
    query_after 2 worked_example_2 [] 1377 2377 =
        .ok [15, 14, 13, 12, 11, 10, 9, 8, 7, 6, 5, 0] ∧
      5 ∈ [15, 14, 13, 12, 11, 10, 9, 8, 7, 6, 5, 0] ∧
      5 ∉ [0, 6, 7, 8, 9, 10, 11, 12, 13, 14, 15, 16] ∧
      16 ∉ [15, 14, 13, 12, 11, 10, 9, 8, 7, 6, 5, 0] ∧
      16 ∈ [0, 6, 7, 8, 9, 10, 11, 12, 13, 14, 15, 16] :=
  ⟨by decide!, by decide, by decide, by decide, by decide⟩

/-- C18, amended: on the eighteen intervals of worked example 2, loaded on a
fresh object and indexed, the first query `(1377, 2377)`, given two hops or
more, returns `found = [15, 14, ..., 5, 0]`, the index set `{0, 5, 6, ..., 15}`;
these are the intervals that overlap `[1377, 2377]`: interval 5 = `(639, 1639)`
does, interval 16 = `(2384, 3384)` does not. -/
theorem worked_example_two (fuel : Nat) (h : 2 ≤ fuel) :
    query_after fuel worked_example_2 [] 1377 2377 =
        .ok [15, 14, 13, 12, 11, 10, 9, 8, 7, 6, 5, 0] ∧
      overlaps 1377 2377 639 1639 ∧ ¬ overlaps 1377 2377 2384 3384 :=
  ⟨query_after_more_fuel worked_example_2 1377 2377 2 fuel _ h (by decide!),
   by decide, by decide⟩

theorem worked_example_two_witness :
    query_after 18 worked_example_2 [] 1377 2377 =
        .ok [15, 14, 13, 12, 11, 10, 9, 8, 7, 6, 5, 0] ∧
      overlaps 1377 2377 639 1639 ∧ ¬ overlaps 1377 2377 2384 3384 :=
  worked_example_two 18 (by decide)

/-! ## The tables against their reference definitions -/

/-- C19 (`branch_right` is the largest index of the right class), evaluated: on
the store `(0,3), (1,4), (2,2)`, built on a fresh object and indexed,
`branch_right` is `[1, -1, 0]`; the right class of interval 2 is `{0, 1}`, so
the reference value of `branch_right[2]` is 1, and the code has 0. -/
theorem branch_right_differs_from_reference :
    (build [(0, 3, ()), (1, 4, ()), (2, 2, ())]).map (fun s => s.branch_right) =
        .ok [1, -1, 0] ∧
      spec_branch_right [⟨0, 3⟩, ⟨1, 4⟩, ⟨2, 2⟩] 2 = 1 ∧
      right_class [⟨0, 3⟩, ⟨1, 4⟩, ⟨2, 2⟩] 2 0 = true ∧
      right_class [⟨0, 3⟩, ⟨1, 4⟩, ⟨2, 2⟩] 2 1 = true := by
  decide!

/-- C20 (`branch_left` is the largest index of the left class), evaluated: on
the store `(0,2), (1,3), (2,4)`, built on a fresh object and indexed,
`branch_left` is `[-1, 0, 0]`; the left class of interval 2 is `{0, 1}`, so the
reference value of `branch_left[2]` is 1, and the code has 0. -/
theorem branch_left_differs_from_reference :
    (build [(0, 2, ()), (1, 3, ()), (2, 4, ())]).map (fun s => s.branch_left) =
        .ok [-1, 0, 0] ∧
      spec_branch_left [⟨0, 2⟩, ⟨1, 3⟩, ⟨2, 4⟩] 2 = 1 ∧
      left_class [⟨0, 2⟩, ⟨1, 3⟩, ⟨2, 4⟩] 2 0 = true ∧
      left_class [⟨0, 2⟩, ⟨1, 3⟩, ⟨2, 4⟩] 2 1 = true := by
  decide!

/-! ## Two intervals with the same start -/

theorem ok_bind {α β : Type} (a : α) (f : α → Except Fault β) :
    (Except.ok a >>= f) = f a := rfl

theorem pure_eq_ok {α : Type} (a : α) : (pure a : Except Fault α) = Except.ok a := rfl

theorem run_adds_coincident {T : Type} (s e0 e1 : Int) (v0 v1 : T) :
    run_adds (SIntersect.new T) [(s, e0, v0), (s, e1, v1)] =
      { starts := [s, s], ends := [e0, e1], intervals := [⟨s, e0⟩, ⟨s, e1⟩],
        branch_left := [], branch_right := [], data := [v0, v1],
        distance_threshold := 50000, idx := 0, n_intervals := 0, last_q_start := S_min,
        isSorted := true, COUNTER := 0 } := by
  simp [run_adds, add, SIntersect.new, AddResult.state]

set_option maxHeartbeats 1600000 in
theorem build_coincident {T : Type} (s e0 e1 : Int) (v0 v1 : T) (hmin : S_min ≤ s)
    (h0 : s ≤ e0) (h1 : e0 < e1) :
    build [(s, e0, v0), (s, e1, v1)] = .ok (coincident_store s e0 e1 v0 v1) := by
  unfold build
  rw [run_adds_coincident]
  have hm : S_min < e1 := by omega
  have hse1 : s < e1 := by omega
  have hse1le : s ≤ e1 := by omega
  have hne1 : ¬ e1 < e0 := by omega
  have hne2 : ¬ e1 ≤ e0 := by omega
  rcases lt_or_eq_of_le h0 with hlt | heq
  · have hnle : ¬ e0 ≤ s := by omega
    simp [index, index_outer, index_inner, improves, resize, vget, vgetl, vset, _binary_search,
      hm, lower_bound, lower_bound_loop, hse1, ok_bind, pure_eq_ok, is_overlapping, h0, hse1le,
      hne1, hne2, hlt, hnle, h1, coincident_store]
  · have hnlt : ¬ s < e0 := by omega
    have hle2 : e0 ≤ s := by omega
    simp [index, index_outer, index_inner, improves, resize, vget, vgetl, vset, _binary_search,
      hm, lower_bound, lower_bound_loop, hse1, ok_bind, pure_eq_ok, is_overlapping, hse1le,
      hne1, hne2, h1, h0, hnlt, hle2, coincident_store]


/-- Queries that return change the cursor only: the object is the one before
them with another `idx`, a position of `starts`, and another `last_q_start`. -/
theorem run_queries_state {T : Type} (fuel : Nat) :
    ∀ (earlier : List (Int × Int)) (s : SIntersect T), s.n_intervals ≠ 0 →
      s.idx < s.starts.length →
      WhenOk (fun r => ∃ (k : Nat) (l : Int), k < s.starts.length ∧
          r = { s with idx := k, last_q_start := l })
        (run_queries fuel s earlier) := by
  intro earlier
  induction earlier with
  | nil =>
    intro s _ hidx
    unfold run_queries
    exact ⟨s.idx, s.last_q_start, hidx, rfl⟩
  | cons q rest ih =>
    intro s hn hidx
    obtain ⟨qs, qe⟩ := q
    unfold run_queries
    have hf := search_overlap_frame s fuel qs qe [] hn (by omega) (by omega)
    cases hso : search_overlap fuel s qs qe [] with
    | error e => trivial
    | ok r =>
      rw [hso] at hf
      obtain ⟨k, hk, hr⟩ := hf
      show WhenOk _ (run_queries fuel r.1 rest)
      have := ih r.1 (by rw [hr]; exact hn) (by rw [hr]; exact hk)
      rw [hr] at this ⊢
      exact this

theorem walk_max_done {T : Type} (s : SIntersect T) (qs qe : Int) (fuel : Nat) (mx mn : Int)
    (found : List Nat) (h : mx < 0) : walk_max s qs qe fuel mx mn found = .ok (mn, found) := by
  unfold walk_max
  rw [if_pos h]

set_option maxHeartbeats 1600000 in
theorem query_coincident {T : Type} (s e0 e1 : Int) (v0 v1 : T) (h0 : s ≤ e0) (h1 : e0 < e1)
    (k : Nat) (l : Int) (hk : k < 2) (fuel : Nat) (p : Int) (hp0 : s ≤ p) (hp1 : p ≤ e0) :
    query (fuel + 1) { coincident_store s e0 e1 v0 v1 with idx := k, last_q_start := l } p p =
        .ok [1, 0] ∨
      query (fuel + 1) { coincident_store s e0 e1 v0 v1 with idx := k, last_q_start := l } p p =
        .ok [0, 1] := by
  have hb := binary_search_returns
    { coincident_store s e0 e1 v0 v1 with idx := k, last_q_start := l } p
    (by simp [coincident_store]; omega) (by simp [coincident_store])
  rcases (returns_iff _ _).1 hb with ⟨s2, hs2, k2, hk2, rfl⟩
  have hk2b : k2 < 2 := by simpa [coincident_store] using hk2
  have hpe1 : p ≤ e1 := by omega
  have hse1 : s ≤ e1 := by omega
  unfold query search_overlap
  rw [if_neg (by simp [coincident_store])]
  dsimp only
  rw [hs2]
  interval_cases k2
  · right
    simp [coincident_store, ok_bind, pure_eq_ok, vget, vgetl, sweep_free, sweep_anchored,
      walk_max, walk_min, is_overlapping_interval, hp0, hp1, hpe1, hse1, h0, LONG_MAX]
    rw [walk_max_done _ _ _ _ _ _ _ (by decide)]
    rfl
  · left
    simp [coincident_store, ok_bind, pure_eq_ok, vget, vgetl, sweep_free, sweep_anchored,
      walk_max, walk_min, is_overlapping_interval, hp0, hp1, hpe1, hse1, h0, LONG_MAX]


/-- C16 (coincident starts): for two intervals `(s, e0)`, `(s, e1)` with
`s ≤ e0 < e1` (scalars of type `int`, so `s` is not below the least `int`),
loaded on a fresh object, `index()` returns with `branch_right[0] = 1`, and
after any queries that return, every point query `(p, p)` with `s ≤ p ≤ e0`,
given one hop or more, returns the indices 0 and 1, each once. -/
theorem coincident_starts (T : Type) (s e0 e1 : Int) (v0 v1 : T) (hmin : S_min ≤ s)
    (h0 : s ≤ e0) (h1 : e0 < e1) :
    ∃ s0, build [(s, e0, v0), (s, e1, v1)] = .ok s0 ∧ s0.branch_right[0]? = some 1 ∧
      ∀ (fuel1 fuel : Nat) (earlier : List (Int × Int)) (s1 : SIntersect T) (p : Int),
        run_queries fuel1 s0 earlier = .ok s1 → 1 ≤ fuel → s ≤ p → p ≤ e0 →
          query fuel s1 p p = .ok [1, 0] ∨ query fuel s1 p p = .ok [0, 1] := by
  refine ⟨coincident_store s e0 e1 v0 v1, build_coincident s e0 e1 v0 v1 hmin h0 h1, rfl, ?_⟩
  intro fuel1 fuel earlier s1 p hs1 hfuel hp0 hp1
  have hst := (whenOk_iff _ _).1
    (run_queries_state fuel1 earlier (coincident_store s e0 e1 v0 v1)
      (by simp [coincident_store]) (by simp [coincident_store])) s1 hs1
  obtain ⟨k, l, hk, rfl⟩ := hst
  obtain ⟨f, rfl⟩ : ∃ f, fuel = f + 1 := ⟨fuel - 1, by omega⟩
  exact query_coincident s e0 e1 v0 v1 h0 h1 k l (by simpa [coincident_store] using hk) f p
    hp0 hp1

theorem coincident_starts_witness :
    query_after 1 [(10, 20, ()), (10, 30, ())] [] 15 15 = .ok [1, 0] ∧
      ∃ s0, build [(10, 20, ()), (10, 30, ())] = .ok s0 ∧ s0.branch_right[0]? = some 1 ∧
        ∀ (fuel1 fuel : Nat) (earlier : List (Int × Int)) (s1 : SIntersect Unit) (p : Int),
          run_queries fuel1 s0 earlier = .ok s1 → 1 ≤ fuel → 10 ≤ p → p ≤ 20 →
            query fuel s1 p p = .ok [1, 0] ∨ query fuel s1 p p = .ok [0, 1] :=
  ⟨by decide!, coincident_starts Unit 10 20 30 () () (by decide) (by decide) (by decide)⟩

/-! ## The frame of a query -/

/-- A query that returns on an object with `n_intervals > 0`, whatever the
cursor, has changed `idx` and `last_q_start` and nothing else. -/
theorem search_overlap_frame_any {T : Type} (s : SIntersect T) (fuel : Nat) (qs qe : Int)
    (out0 : List Nat) (hn : s.n_intervals ≠ 0) :
    WhenOk (fun r => ∃ k, r.1 = { s with idx := k, last_q_start := qs })
      (search_overlap fuel s qs qe out0) := by
  unfold search_overlap
  rw [if_neg hn]
  dsimp only
  cases hb : _binary_search s qe with
  | error e => trivial
  | ok s1 =>
    have hs1 : ∃ k, s1 = { s with idx := k } := by
      unfold _binary_search at hb
      by_cases hlen : s.starts.length < s.idx
      · rw [if_pos hlen] at hb
        cases hb
      · rw [if_neg hlen] at hb
        cases hb
        exact ⟨_, rfl⟩
    obtain ⟨k, rfl⟩ := hs1
    show WhenOk _ (vget _ _ >>= _)
    refine whenOk_bind ?_
    intro bl
    refine whenOk_bind ?_
    intro mr
    refine whenOk_bind ?_
    intro cond
    refine whenOk_bind ?_
    rintro ⟨i, mx, mn, found⟩
    refine whenOk_bind ?_
    rintro ⟨i2, found2⟩
    refine whenOk_bind ?_
    intro found3
    refine whenOk_bind ?_
    intro found4
    exact ⟨k, rfl⟩

/-- C25 (frame of a query): when `n_intervals > 0` and
`search_overlap(qs, qe, out)` returns, the object differs from the one before
the call in `idx` and `last_q_start` only: `intervals`, `starts`, `ends`,
`data`, `branch_left`, `branch_right` and `n_intervals` are the same, and
`last_q_start = qs`. -/
theorem query_frame (T : Type) (s : SIntersect T) (fuel : Nat) (qs qe : Int)
    (out0 : List Nat) (r : SIntersect T × List Nat) (hn : 0 < s.n_intervals)
    (h : search_overlap fuel s qs qe out0 = .ok r) :
    r.1.intervals = s.intervals ∧ r.1.starts = s.starts ∧ r.1.ends = s.ends ∧
      r.1.data = s.data ∧ r.1.branch_left = s.branch_left ∧
      r.1.branch_right = s.branch_right ∧ r.1.n_intervals = s.n_intervals ∧
      r.1.last_q_start = qs ∧ ∃ k, r.1 = { s with idx := k, last_q_start := qs } := by
  have hf := (whenOk_iff _ _).1 (search_overlap_frame_any s fuel qs qe out0 (by omega)) r h
  obtain ⟨k, hk⟩ := hf
  rw [hk]
  exact ⟨rfl, rfl, rfl, rfl, rfl, rfl, rfl, rfl, k, rfl⟩

theorem query_frame_witness :
    search_overlap 1 (coincident_store 10 20 30 () ()) 15 15 [7] =
        .ok ({ coincident_store 10 20 30 () () with idx := 1, last_q_start := 15 }, [1, 0]) ∧
      ({ coincident_store 10 20 30 () () with idx := 1, last_q_start := 15 } :
          SIntersect Unit).branch_right = (coincident_store 10 20 30 () ()).branch_right ∧
      ({ coincident_store 10 20 30 () () with idx := 1, last_q_start := 15 } :
          SIntersect Unit).last_q_start = 15 :=
  ⟨by decide!,
   (query_frame Unit (coincident_store 10 20 30 () ()) 1 15 15 [7]
      ({ coincident_store 10 20 30 () () with idx := 1, last_q_start := 15 }, [1, 0])
      (by decide) (by decide!)).2.2.2.2.2.1,
   (query_frame Unit (coincident_store 10 20 30 () ()) 1 15 15 [7]
      ({ coincident_store 10 20 30 () () with idx := 1, last_q_start := 15 }, [1, 0])
      (by decide) (by decide!)).2.2.2.2.2.2.2.1⟩

/-! ## The cursor-aware binary search and a second `index()` -/

/-- C23 (`_binary_search(p)` lands on the largest `i` with `starts[i] ≤ p`),
evaluated: on the store `(0,1), (10,11), (20,21)`, indexed, the query
`(0, 100)` leaves `idx = 2`, `last_q_start = 0`; then `_binary_search(5)` searches
`[idx, n)` only and sets `idx = 1`, although `starts[1] = 10 > 5` and the largest
`i` with `starts[i] ≤ 5` is 0. -/
theorem binary_search_misses_largest :
    (do let s0 ← build [(0, 1, ()), (10, 11, ()), (20, 21, ())]
        let s1 ← run_queries 5 s0 [(0, 100)]
        let s2 ← _binary_search s1 5
        pure (s1.starts, s1.idx, s1.last_q_start, s2.idx)) = .ok ([0, 10, 20], 2, 0, 1) ∧
      largest_index (fun i => decide (([0, 10, 20] : List Int).getD i 0 ≤ 5)) 3 = 0 := by
  decide!

/-- C24 (a second `index()` gives the same tables), evaluated: on the store
`(0,0), (1,2), (2,3)` the first `index()` gives `branch_left = [-1, -1, 1]`,
`branch_right = [-1, 2, -1]`; after the query `(3, 3)`, which leaves
`last_q_start = 3`, a second `index()` gives tables that hold `-1` only. -/
theorem second_index_differs :
    (do let s0 ← build [(0, 0, ()), (1, 2, ()), (2, 3, ())]
        pure (s0.branch_left, s0.branch_right)) = .ok ([-1, -1, 1], [-1, 2, -1]) ∧
      (do let s0 ← build [(0, 0, ()), (1, 2, ()), (2, 3, ())]
          let s1 ← run_queries 5 s0 [(3, 3)]
          let s2 ← index s1
          pure (s1.last_q_start, s2.branch_left, s2.branch_right)) =
        .ok (3, [-1, -1, -1], [-1, -1, -1]) := by
  decide!

/-! ## What `index()` stores in the tables -/

theorem whenOk_step {α β : Type} {Q : α → Prop} {R : β → Prop} {x : Except Fault α}
    {f : α → Except Fault β} (hx : WhenOk Q x) (hf : ∀ a, Q a → WhenOk R (f a)) :
    WhenOk R (x >>= f) := by
  cases x with
  | ok a => exact hf a hx
  | error e => trivial

theorem vget_whenOk {α : Type} (v : List α) (i : Nat) :
    WhenOk (fun x => v[i]? = some x) (vget v i) := by
  unfold vget
  cases h : v[i]? with
  | none => trivial
  | some x => rfl

theorem neighbourOk_set (R : siInterval → siInterval → Prop) (intervals : List siInterval)
    (tbl : List Int) (k : Nat) (x : Int) (h : NeighbourOk R intervals tbl)
    (hx : x = -1 ∨ (0 ≤ x ∧ x.toNat ≠ k ∧ ∃ a b, intervals[k]? = some a ∧
      intervals[x.toNat]? = some b ∧ overlaps a.start a.end_ b.start b.end_ ∧ R a b)) :
    NeighbourOk R intervals (tbl.set k x) := by
  intro k2 x2 h2
  rw [List.getElem?_set] at h2
  by_cases hk : k = k2
  · rw [if_pos hk] at h2
    by_cases hlt : k < tbl.length
    · rw [if_pos hlt] at h2
      cases h2
      rw [← hk]
      exact hx
    · rw [if_neg hlt] at h2
      cases h2
  · rw [if_neg hk] at h2
    exact h k2 x2 h2

/-- One guarded table update keeps the table valid when the written pair is
valid. -/
theorem guarded_set_whenOk (R : siInterval → siInterval → Prop) (intervals : List siInterval)
    (tbl : List Int) (k : Nat) (x : Int) (c : Prop) [Decidable c]
    (h : NeighbourOk R intervals tbl)
    (hx : x = -1 ∨ (0 ≤ x ∧ x.toNat ≠ k ∧ ∃ a b, intervals[k]? = some a ∧
      intervals[x.toNat]? = some b ∧ overlaps a.start a.end_ b.start b.end_ ∧ R a b)) :
    WhenOk (fun t => NeighbourOk R intervals t) (if c then vset tbl k x else pure tbl) := by
  by_cases hc : c
  · rw [if_pos hc]
    unfold vset
    by_cases hlt : k < tbl.length
    · rw [if_pos hlt]
      exact neighbourOk_set R intervals tbl k x h hx
    · rw [if_neg hlt]
      trivial
  · rw [if_neg hc]
    exact h

theorem index_inner_valid {T : Type} (i : Nat) (a b : Int) :
    ∀ (m : Nat) (s : SIntersect T), s.intervals[i]? = some ⟨a, b⟩ →
      NeighbourOk ends_no_earlier s.intervals s.branch_right →
      NeighbourOk ends_no_later s.intervals s.branch_left →
      WhenOk (fun r => r.intervals = s.intervals ∧
          NeighbourOk ends_no_earlier r.intervals r.branch_right ∧
          NeighbourOk ends_no_later r.intervals r.branch_left)
        (index_inner i a b m s) := by
  intro m
  induction m with
  | zero =>
    intro s _ hr hl
    unfold index_inner
    exact ⟨rfl, hr, hl⟩
  | succ j ih =>
    intro s hi hr hl
    unfold index_inner
    by_cases hij : i = j
    · rw [if_pos hij]
      exact ih s hi hr hl
    · rw [if_neg hij]
      refine whenOk_step (vget_whenOk s.intervals j) ?_
      intro q hq
      dsimp only
      by_cases hov : is_overlapping a b q.start q.end_ = true
      · rw [if_pos hov]
        have hov1 : overlaps a b q.start q.end_ := by
          simpa [is_overlapping, overlaps] using hov
        have hov2 : overlaps q.start q.end_ a b := by
          unfold overlaps at hov1 ⊢
          rw [max_comm, min_comm]
          exact hov1
        have hji : j ≠ i := fun h => hij h.symm
        by_cases hgt : q.end_ > b
        · rw [if_pos hgt]
          refine whenOk_bind ?_
          intro c1
          refine whenOk_step (guarded_set_whenOk ends_no_earlier s.intervals s.branch_right i
            (j : Int) (c1 = true) hr ?_) ?_
          · right
            refine ⟨by omega, by simpa using hji, ⟨a, b⟩, q, hi, by simpa using hq, hov1, ?_⟩
            show b ≤ q.end_
            omega
          intro br hbr
          refine whenOk_bind ?_
          intro c2
          refine whenOk_step (guarded_set_whenOk ends_no_later s.intervals s.branch_left j
            (i : Int) (c2 = true) hl ?_) ?_
          · right
            refine ⟨by omega, by simpa using hij, q, ⟨a, b⟩, hq, by simpa using hi, hov2, ?_⟩
            show b ≤ q.end_
            omega
          intro bl hbl
          exact ih _ hi hbr hbl
        · rw [if_neg hgt]
          refine whenOk_bind ?_
          intro c1
          refine whenOk_step (guarded_set_whenOk ends_no_later s.intervals s.branch_left i
            (j : Int) (c1 = true) hl ?_) ?_
          · right
            refine ⟨by omega, by simpa using hji, ⟨a, b⟩, q, hi, by simpa using hq, hov1, ?_⟩
            show q.end_ ≤ b
            omega
          intro bl hbl
          refine whenOk_bind ?_
          intro c2
          by_cases hc2 : c2 = true
          · rw [if_pos hc2]
            refine whenOk_bind ?_
            intro bri
            refine whenOk_step (guarded_set_whenOk ends_no_earlier s.intervals s.branch_right i
              (-1) (bri = (j : Int)) hr (Or.inl rfl)) ?_
            intro br hbr
            unfold vset
            by_cases hlt : j < br.length
            · rw [if_pos hlt]
              refine ih _ hi (neighbourOk_set ends_no_earlier s.intervals br j (i : Int) hbr ?_) hbl
              right
              refine ⟨by omega, by simpa using hij, q, ⟨a, b⟩, hq, by simpa using hi, hov2, ?_⟩
              show q.end_ ≤ b
              omega
            · rw [if_neg hlt]
              trivial
          · rw [if_neg hc2]
            exact ih _ hi hr hbl
      · rw [if_neg hov]
        exact ⟨rfl, hr, hl⟩

theorem binary_search_whenOk {T : Type} (s : SIntersect T) (pos : Int) :
    WhenOk (fun r => ∃ k, r = { s with idx := k }) (_binary_search s pos) := by
  unfold _binary_search
  by_cases hlen : s.starts.length < s.idx
  · rw [if_pos hlen]
    trivial
  · rw [if_neg hlen]
    exact ⟨_, rfl⟩

theorem index_outer_valid {T : Type} :
    ∀ (k : Nat) (s : SIntersect T),
      NeighbourOk ends_no_earlier s.intervals s.branch_right →
      NeighbourOk ends_no_later s.intervals s.branch_left →
      WhenOk (fun r => r.intervals = s.intervals ∧
          NeighbourOk ends_no_earlier r.intervals r.branch_right ∧
          NeighbourOk ends_no_later r.intervals r.branch_left)
        (index_outer k s) := by
  intro k
  induction k with
  | zero =>
    intro s hr hl
    unfold index_outer
    exact ⟨rfl, hr, hl⟩
  | succ i ih =>
    intro s hr hl
    unfold index_outer
    refine whenOk_step (vget_whenOk s.intervals i) ?_
    intro itv hitv
    dsimp only
    refine whenOk_step (binary_search_whenOk s itv.end_) ?_
    rintro s1 ⟨j, rfl⟩
    refine whenOk_step
      (index_inner_valid i itv.start itv.end_ (j + 1)
        { s with idx := j, last_q_start := itv.start } hitv hr hl) ?_
    rintro s2 ⟨hint, hr2, hl2⟩
    have h := ih s2 hr2 hl2
    rw [hint] at h
    exact h

theorem neighbourOk_replicate (R : siInterval → siInterval → Prop)
    (intervals : List siInterval) (n : Nat) :
    NeighbourOk R intervals (resize ([] : List Int) n (-1)) := by
  intro k x h
  left
  have hm : x ∈ resize ([] : List Int) n (-1) := List.getElem?_mem h
  exact resize_nil_mem n (-1) x hm

/-- On a freshly loaded object, what `index()` leaves in the tables is valid:
every entry of `branch_right` is `-1` or another overlapping interval that ends
no earlier, every entry of `branch_left` is `-1` or another overlapping
interval that ends no later. -/
theorem index_valid {T : Type} (s : SIntersect T) (hbl : s.branch_left = [])
    (hbr : s.branch_right = []) :
    WhenOk (fun r => r.intervals = s.intervals ∧
        NeighbourOk ends_no_earlier r.intervals r.branch_right ∧
        NeighbourOk ends_no_later r.intervals r.branch_left)
      (index s) := by
  have hnil : ∀ R : siInterval → siInterval → Prop, NeighbourOk R s.intervals [] := by
    intro R k x h
    simp at h
  unfold index
  dsimp only
  by_cases h2 : s.intervals.length < 2
  · rw [if_pos h2]
    refine ⟨rfl, ?_, ?_⟩
    · show NeighbourOk ends_no_earlier s.intervals s.branch_right
      rw [hbr]
      exact hnil _
    · show NeighbourOk ends_no_later s.intervals s.branch_left
      rw [hbl]
      exact hnil _
  · rw [if_neg h2, if_neg (by simp [hbl])]
    dsimp only
    rw [hbl, hbr]
    refine whenOk_step (index_outer_valid s.intervals.length _
      (neighbourOk_replicate _ _ _) (neighbourOk_replicate _ _ _)) ?_
    rintro r ⟨hint, hr, hl⟩
    exact ⟨hint, hr, hl⟩

/-- The object that `index()` hands back on a fresh load of two intervals or
more: tables in shape and valid. -/
theorem build_valid {T : Type} (calls : List (Int × Int × T))
    (hn : 2 ≤ size (run_adds (SIntersect.new T) calls)) :
    ∃ s0, build calls = .ok s0 ∧ s0.idx = 0 ∧
      TablesOk s0 (size (run_adds (SIntersect.new T) calls)) ∧
      s0.intervals = (run_adds (SIntersect.new T) calls).intervals ∧
      NeighbourOk ends_no_earlier s0.intervals s0.branch_right ∧
      NeighbourOk ends_no_later s0.intervals s0.branch_left := by
  obtain ⟨s0, hs0, hzero, _, _, hint, htab⟩ := build_shape calls (by omega)
  obtain ⟨_, _, hbl, hbr⟩ := run_adds_fresh calls
  have hv := (whenOk_iff _ _).1 (index_valid (run_adds (SIntersect.new T) calls) hbl hbr) s0 hs0
  exact ⟨s0, hs0, hzero, htab hn, hint, hv.2.1, hv.2.2⟩

/-- A valid table entry other than `-1`, read against the parallel arrays. -/
theorem neighbourOk_arrays (R : siInterval → siInterval → Prop) (intervals : List siInterval)
    (tbl : List Int) (starts ends : List Int)
    (hst : starts = intervals.map (fun x => x.start))
    (hen : ends = intervals.map (fun x => x.end_))
    (h : NeighbourOk R intervals tbl) (i : Nat) (x : Int) (hx : tbl[i]? = some x)
    (hne : x ≠ -1) :
    0 ≤ x ∧ x.toNat < intervals.length ∧ x.toNat ≠ i ∧
      ∃ a b, starts[i]? = some a.start ∧ ends[i]? = some a.end_ ∧
        starts[x.toNat]? = some b.start ∧ ends[x.toNat]? = some b.end_ ∧
        overlaps a.start a.end_ b.start b.end_ ∧ R a b := by
  rcases h i x hx with h1 | ⟨h0, hki, a, b, ha, hb, hov, hR⟩
  · exact absurd h1 hne
  · refine ⟨h0, (List.getElem?_eq_some_iff.1 hb).1, hki, a, b, ?_, ?_, ?_, ?_, hov, hR⟩
    · rw [hst, List.getElem?_map, ha]
      rfl
    · rw [hen, List.getElem?_map, ha]
      rfl
    · rw [hst, List.getElem?_map, hb]
      rfl
    · rw [hen, List.getElem?_map, hb]
      rfl

/-- C21, as stated, fails: on the store `(0,1), (1,1)`, built on a fresh object
and indexed, `branch_right[1] = 0`, and interval 0 ends at 1 as interval 1
does: its end is not strictly greater. -/
theorem right_neighbour_with_equal_end :
    (do let s0 ← build [(0, 1, ()), (1, 1, ())]
        pure (s0.branch_right, s0.ends)) = .ok ([-1, 0], [1, 1]) ∧
      ¬ ((1 : Int) < 1) := by
  decide!

/-- C21, amended: after `index()` on a fresh load of `n ≥ 2` intervals, every
`branch_right[i]` other than `-1` is the index, below `n` and other than `i`,
of an interval that overlaps interval `i` and whose end is greater than or
equal to `ends[i]`. -/
theorem right_neighbour_valid (T : Type) (calls : List (Int × Int × T))
    (hn : 2 ≤ size (run_adds (SIntersect.new T) calls)) :
    ∃ s0, build calls = .ok s0 ∧
      s0.branch_right.length = size (run_adds (SIntersect.new T) calls) ∧
      ∀ (i : Nat) (x : Int), s0.branch_right[i]? = some x → x ≠ -1 →
        0 ≤ x ∧ x.toNat < size (run_adds (SIntersect.new T) calls) ∧ x.toNat ≠ i ∧
        ∃ si ei sx ex, (run_adds (SIntersect.new T) calls).starts[i]? = some si ∧
          (run_adds (SIntersect.new T) calls).ends[i]? = some ei ∧
          (run_adds (SIntersect.new T) calls).starts[x.toNat]? = some sx ∧
          (run_adds (SIntersect.new T) calls).ends[x.toNat]? = some ex ∧
          overlaps si ei sx ex ∧ ei ≤ ex := by
  obtain ⟨s0, hs0, _, htab, hint, hr, _⟩ := build_valid calls hn
  obtain ⟨hst, hen, _, _⟩ := run_adds_fresh calls
  refine ⟨s0, hs0, htab.2.2.2.2.1, ?_⟩
  intro i x hx hne
  rw [hint] at hr
  obtain ⟨h0, hlt, hki, a, b, h1, h2, h3, h4, hov, hR⟩ :=
    neighbourOk_arrays _ _ _ _ _ hst hen hr i x hx hne
  exact ⟨h0, hlt, hki, a.start, a.end_, b.start, b.end_, h1, h2, h3, h4, hov, hR⟩

theorem right_neighbour_valid_witness :
    (build worked_example_1).map (fun s => s.branch_right) =
        .ok [-1, 3, 3, 7, 3, 6, 3, -1, 9, 7, 7, 13, 11, -1] ∧
      ∃ s0, build worked_example_1 = .ok s0 ∧
        s0.branch_right.length = size (run_adds (SIntersect.new Unit) worked_example_1) ∧
        ∀ (i : Nat) (x : Int), s0.branch_right[i]? = some x → x ≠ -1 →
          0 ≤ x ∧ x.toNat < size (run_adds (SIntersect.new Unit) worked_example_1) ∧
          x.toNat ≠ i ∧
          ∃ si ei sx ex, (run_adds (SIntersect.new Unit) worked_example_1).starts[i]? = some si ∧
            (run_adds (SIntersect.new Unit) worked_example_1).ends[i]? = some ei ∧
            (run_adds (SIntersect.new Unit) worked_example_1).starts[x.toNat]? = some sx ∧
            (run_adds (SIntersect.new Unit) worked_example_1).ends[x.toNat]? = some ex ∧
            overlaps si ei sx ex ∧ ei ≤ ex :=
  ⟨by decide!, right_neighbour_valid Unit worked_example_1 (by decide)⟩

/-- C22 (left-neighbour validity): after `index()` on a fresh load of `n ≥ 2`
intervals, every `branch_left[i]` other than `-1` is the index, below `n` and
other than `i`, of an interval that overlaps interval `i` and whose end is less
than or equal to `ends[i]`. -/
theorem left_neighbour_valid (T : Type) (calls : List (Int × Int × T))
    (hn : 2 ≤ size (run_adds (SIntersect.new T) calls)) :
    ∃ s0, build calls = .ok s0 ∧
      s0.branch_left.length = size (run_adds (SIntersect.new T) calls) ∧
      ∀ (i : Nat) (x : Int), s0.branch_left[i]? = some x → x ≠ -1 →
        0 ≤ x ∧ x.toNat < size (run_adds (SIntersect.new T) calls) ∧ x.toNat ≠ i ∧
        ∃ si ei sx ex, (run_adds (SIntersect.new T) calls).starts[i]? = some si ∧
          (run_adds (SIntersect.new T) calls).ends[i]? = some ei ∧
          (run_adds (SIntersect.new T) calls).starts[x.toNat]? = some sx ∧
          (run_adds (SIntersect.new T) calls).ends[x.toNat]? = some ex ∧
          overlaps si ei sx ex ∧ ex ≤ ei := by
  obtain ⟨s0, hs0, _, htab, hint, _, hl⟩ := build_valid calls hn
  obtain ⟨hst, hen, _, _⟩ := run_adds_fresh calls
  refine ⟨s0, hs0, htab.2.2.2.1, ?_⟩
  intro i x hx hne
  rw [hint] at hl
  obtain ⟨h0, hlt, hki, a, b, h1, h2, h3, h4, hov, hR⟩ :=
    neighbourOk_arrays _ _ _ _ _ hst hen hl i x hx hne
  exact ⟨h0, hlt, hki, a.start, a.end_, b.start, b.end_, h1, h2, h3, h4, hov, hR⟩

theorem left_neighbour_valid_witness :
    (build worked_example_1).map (fun s => s.branch_left) =
        .ok [-1, 2, -1, 6, -1, -1, 5, 10, -1, 8, -1, 12, -1, 11] ∧
      ∃ s0, build worked_example_1 = .ok s0 ∧
        s0.branch_left.length = size (run_adds (SIntersect.new Unit) worked_example_1) ∧
        ∀ (i : Nat) (x : Int), s0.branch_left[i]? = some x → x ≠ -1 →
          0 ≤ x ∧ x.toNat < size (run_adds (SIntersect.new Unit) worked_example_1) ∧
          x.toNat ≠ i ∧
          ∃ si ei sx ex, (run_adds (SIntersect.new Unit) worked_example_1).starts[i]? = some si ∧
            (run_adds (SIntersect.new Unit) worked_example_1).ends[i]? = some ei ∧
            (run_adds (SIntersect.new Unit) worked_example_1).starts[x.toNat]? = some sx ∧
            (run_adds (SIntersect.new Unit) worked_example_1).ends[x.toNat]? = some ex ∧
            overlaps si ei sx ex ∧ ex ≤ ei :=
  ⟨by decide!, left_neighbour_valid Unit worked_example_1 (by decide)⟩

/-! ## Chains of `branch_right` on stores with distinct ends -/

theorem later_ends_lt (intervals : List siInterval) (e : Int) (b : siInterval)
    (hb : b ∈ intervals) (he : e < b.end_) :
    later_ends intervals b.end_ < later_ends intervals e := by
  unfold later_ends
  induction intervals with
  | nil => simp at hb
  | cons a t ih =>
    rw [List.countP_cons, List.countP_cons]
    have hmono : List.countP (fun c => decide (b.end_ < c.end_)) t ≤
        List.countP (fun c => decide (e < c.end_)) t := by
      apply List.countP_mono_left
      intro x _ hx
      simp only [decide_eq_true_eq] at hx ⊢
      omega
    rcases List.mem_cons.1 hb with h | h
    · subst h
      simp only [lt_self_iff_false, decide_False, Bool.false_eq_true, if_false, he,
        decide_True, if_true]
      omega
    · have := ih h
      by_cases h1 : b.end_ < a.end_
      · have h2 : e < a.end_ := by omega
        simp only [h1, h2, decide_True, if_true]
        omega
      · simp only [h1, decide_False, Bool.false_eq_true, if_false]
        split_ifs <;> omega

theorem later_ends_lt_length (intervals : List siInterval) (a : siInterval)
    (ha : a ∈ intervals) : later_ends intervals a.end_ < intervals.length := by
  unfold later_ends
  have hle := List.countP_le_length (fun c : siInterval => decide (a.end_ < c.end_))
    (l := intervals)
  have hne : List.countP (fun c : siInterval => decide (a.end_ < c.end_)) intervals ≠
      intervals.length := by
    intro h
    have := (List.countP_eq_length (p := fun c : siInterval => decide (a.end_ < c.end_))).1 h a ha
    simp at this
  omega

/-- With pairwise distinct ends, a valid right neighbour ends strictly later. -/
theorem neighbourOk_strict (intervals : List siInterval) (tbl : List Int)
    (hnd : (intervals.map (fun x => x.end_)).Nodup)
    (h : NeighbourOk ends_no_earlier intervals tbl) : NeighbourOk ends_later intervals tbl := by
  intro k x hx
  rcases h k x hx with h1 | ⟨h0, hki, a, b, ha, hb, hov, hR⟩
  · exact Or.inl h1
  · refine Or.inr ⟨h0, hki, a, b, ha, hb, hov, ?_⟩
    have hne : a.end_ ≠ b.end_ := by
      intro heq
      have hk1 : (intervals.map (fun x => x.end_))[k]? = some a.end_ := by
        rw [List.getElem?_map, ha]
        rfl
      have hk2 : (intervals.map (fun x => x.end_))[x.toNat]? = some a.end_ := by
        rw [List.getElem?_map, hb, heq]
        rfl
      have hlen1 : k < (intervals.map (fun x => x.end_)).length :=
        (List.getElem?_eq_some_iff.1 hk1).1
      have hlen2 : x.toNat < (intervals.map (fun x => x.end_)).length :=
        (List.getElem?_eq_some_iff.1 hk2).1
      have hall := List.nodup_iff_getElem?_ne_getElem?.1 hnd
      rcases Nat.lt_or_gt_of_ne hki with hlt | hgt
      · exact hall x.toNat k hlt hlen1 (by rw [hk1, hk2])
      · exact hall k x.toNat hgt hlen2 (by rw [hk1, hk2])
    have hle : a.end_ ≤ b.end_ := hR
    show a.end_ < b.end_
    omega

theorem vgetl_whenOk {α : Type} (v : List α) (i : Int) :
    WhenOk (fun x => v[i.toNat]? = some x) (vgetl v i) := by
  unfold vgetl
  by_cases h : i < 0
  · rw [if_pos h]
    trivial
  · rw [if_neg h]
    exact vget_whenOk v i.toNat

/-- On tables in shape whose right neighbours end strictly later, the loop
`while (max_right >= 0)` is over within as many hops as there are intervals
ending after the one it starts at, plus one. -/
theorem walk_max_returns {T : Type} (s : SIntersect T) (n : Nat) (qs qe : Int)
    (hs : TablesOk s n) (hr : NeighbourOk ends_later s.intervals s.branch_right) :
    ∀ (fuel : Nat) (mx mn : Int) (found : List Nat), mx < (n : Int) →
      (0 ≤ mx → ∃ a, s.intervals[mx.toNat]? = some a ∧
        later_ends s.intervals a.end_ < fuel) →
      Returns (fun _ => True) (walk_max s qs qe fuel mx mn found) := by
  obtain ⟨h1, h2, h3, h4, h5, h6, h7⟩ := hs
  intro fuel
  induction fuel with
  | zero =>
    intro mx mn found hmx hrank
    unfold walk_max
    by_cases hneg : mx < 0
    · rw [if_pos hneg]
      trivial
    · obtain ⟨a, _, ha⟩ := hrank (by omega)
      omega
  | succ k ih =>
    intro mx mn found hmx hrank
    unfold walk_max
    by_cases hneg : mx < 0
    · rw [if_pos hneg]
      trivial
    · rw [if_neg hneg]
      dsimp only
      obtain ⟨a, ha, hlt⟩ := hrank (by omega)
      refine returns_bind (vgetl_returns s.intervals mx (by omega) (by omega)) ?_
      intro itv hitv
      refine returns_bind (vgetl_returns s.branch_right mx (by omega) (by omega)) ?_
      intro next hnext
      have hnb := h7 next hnext.2
      have hnext_rank : 0 ≤ next → ∃ b, s.intervals[next.toNat]? = some b ∧
          later_ends s.intervals b.end_ < k := by
        intro hn0
        rcases hr mx.toNat next hnext.1 with hm1 | ⟨_, _, a2, b, ha2, hb, _, hab⟩
        · omega
        · rw [ha] at ha2
          cases ha2
          refine ⟨b, hb, ?_⟩
          have := later_ends_lt s.intervals a.end_ b (List.getElem?_mem hb) hab
          omega
      by_cases ho : is_overlapping_interval qs qe itv = true
      · rw [if_pos ho]
        exact ih next _ _ hnb hnext_rank
      · rw [if_neg ho]
        exact ih next _ _ hnb hnext_rank

theorem walk_min_returns {T : Type} (s : SIntersect T) (n : Nat) (qs qe : Int) (i_right : Int)
    (hs : TablesOk s n) (hr : NeighbourOk ends_later s.intervals s.branch_right)
    (hi : i_right ≤ (n : Int)) :
    ∀ (fuel : Nat) (mn : Int) (found : List Nat),
      (0 ≤ mn → mn < i_right → ∃ a, s.intervals[mn.toNat]? = some a ∧
        later_ends s.intervals a.end_ < fuel) →
      Returns (fun _ => True) (walk_min s qs qe i_right fuel mn found) := by
  obtain ⟨h1, h2, h3, h4, h5, h6, h7⟩ := hs
  intro fuel
  induction fuel with
  | zero =>
    intro mn found hrank
    unfold walk_min
    by_cases hc : mn ≥ 0 ∧ mn < i_right
    · obtain ⟨a, _, ha⟩ := hrank hc.1 hc.2
      omega
    · rw [if_neg hc]
      trivial
  | succ k ih =>
    intro mn found hrank
    unfold walk_min
    by_cases hc : mn ≥ 0 ∧ mn < i_right
    · rw [if_pos hc]
      dsimp only
      obtain ⟨a, ha, hlt⟩ := hrank hc.1 hc.2
      refine returns_bind (vgetl_returns s.intervals mn (by omega) (by omega)) ?_
      intro itv hitv
      refine returns_bind (vgetl_returns s.branch_right mn (by omega) (by omega)) ?_
      intro next hnext
      have hnext_rank : 0 ≤ next → next < i_right →
          ∃ b, s.intervals[next.toNat]? = some b ∧ later_ends s.intervals b.end_ < k := by
        intro hn0 _
        rcases hr mn.toNat next hnext.1 with hm1 | ⟨_, _, a2, b, ha2, hb, _, hab⟩
        · omega
        · rw [ha] at ha2
          cases ha2
          refine ⟨b, hb, ?_⟩
          have := later_ends_lt s.intervals a.end_ b (List.getElem?_mem hb) hab
          omega
      by_cases ho : is_overlapping_interval qs qe itv = true
      · rw [if_pos ho]
        exact ih next _ hnext_rank
      · rw [if_neg ho]
        exact ih next _ hnext_rank
    · rw [if_neg hc]
      trivial

theorem returns_of_inRange {α : Type} {P Q : α → Prop} {x : Except Fault α}
    (hx : Returns P x) (hq : InRange Q x) : Returns Q x := by
  cases x with
  | ok a => exact hq
  | error e => exact hx.elim

theorem rank_of_index (intervals : List siInterval) (n fuel : Nat)
    (hlen : intervals.length = n) (hfuel : n ≤ fuel) (x : Int) (h0 : 0 ≤ x)
    (hx : x < (n : Int)) :
    ∃ a, intervals[x.toNat]? = some a ∧ later_ends intervals a.end_ < fuel := by
  have hlt : x.toNat < intervals.length := by omega
  refine ⟨intervals[x.toNat], List.getElem?_eq_getElem hlt, ?_⟩
  have := later_ends_lt_length intervals intervals[x.toNat] (List.getElem_mem hlt)
  omega

/-- On an indexed object of `n ≥ 1` intervals with tables in shape whose right
neighbours end strictly later, a query given `n` hops or more returns. -/
theorem search_overlap_returns {T : Type} (s : SIntersect T) (n : Nat) (fuel : Nat)
    (qs qe : Int) (out0 : List Nat) (hs : TablesOk s n) (hn : 0 < n) (hidx : s.idx ≤ n)
    (hr : NeighbourOk ends_later s.intervals s.branch_right) (hfuel : n ≤ fuel) :
    Returns (fun r => TablesOk r.1 n ∧ r.1.idx < n ∧ r.1.intervals = s.intervals ∧
        ∀ y ∈ r.2, Hit s.intervals qs qe y)
      (search_overlap fuel s qs qe out0) := by
  have hs0 := hs
  obtain ⟨h1, h2, h3, h4, h5, h6, h7⟩ := hs
  unfold search_overlap
  rw [if_neg (by omega)]
  have hclear : (if out0 ≠ [] then [] else out0) = ([] : List Nat) := by
    by_cases h : out0 = []
    · rw [if_neg (by simpa using h), h]
    · rw [if_pos h]
  dsimp only
  rw [hclear]
  refine returns_bind (binary_search_returns s qe (by omega) (by omega)) ?_
  rintro s1 ⟨k, hk, rfl⟩
  have hs1 : TablesOk { s with idx := k } n := ⟨h1, h2, h3, h4, h5, h6, h7⟩
  dsimp only
  refine returns_bind (vget_returns s.branch_left k (by omega)) ?_
  intro bl hbl
  refine returns_bind (vget_returns s.branch_right k (by omega)) ?_
  intro mr hmr
  have hblb := h6 bl hbl.2
  have hmrb := h7 mr hmr.2
  refine returns_bind (Q := fun _ => True) ?_ ?_
  · by_cases hge : bl ≥ 0
    · rw [if_pos hge]
      refine (returns_bind (vgetl_returns s.intervals bl (by omega) (by omega)) ?_)
      intro b _
      trivial
    · rw [if_neg hge]
      trivial
  intro cond _
  have hstart : (if cond = true then max bl (k : Int) else (k : Int)) < (n : Int) ∧
      0 ≤ (if cond = true then max bl (k : Int) else (k : Int)) := by
    by_cases hc : cond = true
    · rw [if_pos hc]
      exact ⟨max_lt hblb (by omega), le_trans (by omega) (le_max_right _ _)⟩
    · rw [if_neg hc]
      omega
  generalize (if cond = true then max bl (k : Int) else (k : Int)) = start_idx at hstart
  refine returns_bind
    (Q := fun r => r.1 < n ∧ r.2.1 < (n : Int) ∧ ∀ y ∈ r.2.2.2, Hit s.intervals qs qe y) ?_ ?_
  · by_cases hneg : mr < 0
    · rw [if_pos hneg]
      refine (returns_mono (sweep_free_returns { s with idx := k } n qs qe hs1 start_idx.toNat
        mr _ [] (by omega) hmrb (by simp)) ?_)
      rintro r ⟨hr1, hr2, hr3⟩
      exact ⟨by omega, hr2, hr3⟩
    · rw [if_neg hneg]
      exact ⟨by dsimp only; omega, hmrb, by simp⟩
  rintro ⟨i, mx, mn, found⟩ ⟨hi, hmx, hfound⟩
  dsimp only at hi hmx hfound ⊢
  refine returns_bind
    (Q := fun r => r.1 < n ∧ ∀ y ∈ r.2, Hit s.intervals qs qe y) ?_ ?_
  · by_cases hge : mx ≥ 0
    · rw [if_pos hge]
      refine (returns_mono (sweep_anchored_returns { s with idx := k } n qs qe hs1 i found
        hi hfound) ?_)
      rintro r ⟨hr1, hr2⟩
      exact ⟨by omega, hr2⟩
    · rw [if_neg hge]
      exact ⟨hi, hfound⟩
  rintro ⟨i2, found2⟩ ⟨hi2, hfound2⟩
  dsimp only at hi2 hfound2 ⊢
  refine returns_bind (Q := fun r => ∀ y ∈ r, Hit s.intervals qs qe y) ?_ ?_
  · by_cases hz : i2 = 0
    · rw [if_pos hz]
      refine (returns_bind (vget_returns s.intervals i2 (by omega)) ?_)
      intro itv hitv
      by_cases ho : is_overlapping_interval qs qe itv = true
      · show ∀ y ∈ (if is_overlapping_interval qs qe itv = true then found2 ++ [i2] else found2),
          Hit s.intervals qs qe y
        rw [if_pos ho]
        exact hit_append _ _ _ _ _ hfound2 (hit_of_overlapping _ _ _ _ itv hitv.1 ho)
      · show ∀ y ∈ (if is_overlapping_interval qs qe itv = true then found2 ++ [i2] else found2),
          Hit s.intervals qs qe y
        rw [if_neg ho]
        exact hfound2
    · rw [if_neg hz]
      exact hfound2
  intro found3 hfound3
  refine returns_bind (Q := fun r => ∀ y ∈ r, Hit s.intervals qs qe y) ?_ ?_
  · by_cases hgt : mx > start_idx
    · rw [if_pos hgt]
      refine returns_bind
        (returns_of_inRange
          (walk_max_returns { s with idx := k } n qs qe hs1 hr fuel mx mn found3 hmx
            (fun h0 => rank_of_index s.intervals n fuel h1 hfuel mx h0 hmx))
          (walk_max_inRange { s with idx := k } n qs qe hs1 fuel mx mn found3 hmx hfound3)) ?_
      intro r hr
      exact hr
    · rw [if_neg hgt]
      by_cases hlt : mn < start_idx
      · rw [if_pos hlt]
        exact returns_of_inRange
          (walk_min_returns { s with idx := k } n qs qe (i2 : Int) hs1 hr (by omega) fuel mn
            found3 (fun h0 hlt2 => rank_of_index s.intervals n fuel h1 hfuel mn h0 (by omega)))
          (walk_min_inRange { s with idx := k } n qs qe (i2 : Int) hs1 (by omega) fuel mn
            found3 hfound3)
      · rw [if_neg hlt]
        exact hfound3
  intro found4 hfound4
  exact ⟨⟨h1, h2, h3, h4, h5, h6, h7⟩, hk.trans_le (by omega), rfl, hfound4⟩

theorem follow_succ_of_nonneg (tbl : List Int) (k : Nat) (x : Int) (h : 0 ≤ x) :
    follow tbl (k + 1) x = follow tbl k (tbl.getD x.toNat (-1)) := by
  show (if x < 0 then x else follow tbl k (tbl.getD x.toNat (-1))) = _
  rw [if_neg (by omega)]

/-- On a table whose right neighbours end strictly later, the walk from an
index stands, after at most as many hops as there are intervals ending after
the one it starts at, on an index whose entry is `-1`. -/
theorem chain_reaches_end (intervals : List siInterval) (tbl : List Int)
    (hlen : tbl.length = intervals.length) (hr : NeighbourOk ends_later intervals tbl) :
    ∀ (r : Nat) (x : Int) (a : siInterval), 0 ≤ x → intervals[x.toNat]? = some a →
      later_ends intervals a.end_ ≤ r →
      ∃ k, k ≤ r ∧ 0 ≤ follow tbl k x ∧ follow tbl (k + 1) x = -1 := by
  intro r
  induction r with
  | zero =>
    intro x a h0 ha hrank
    have hxlt : x.toNat < tbl.length := by
      rw [hlen]
      exact (List.getElem?_eq_some_iff.1 ha).1
    have he : tbl[x.toNat]? = some tbl[x.toNat] := List.getElem?_eq_getElem hxlt
    rcases hr x.toNat _ he with hm1 | ⟨_, _, a2, b, ha2, hb, _, hab⟩
    · refine ⟨0, Nat.le_refl _, h0, ?_⟩
      rw [follow_succ_of_nonneg tbl 0 x h0, List.getD_eq_getElem?_getD, he]
      exact hm1
    · rw [ha] at ha2
      cases ha2
      have := later_ends_lt intervals a.end_ b (List.getElem?_mem hb) hab
      omega
  | succ r ih =>
    intro x a h0 ha hrank
    have hxlt : x.toNat < tbl.length := by
      rw [hlen]
      exact (List.getElem?_eq_some_iff.1 ha).1
    have he : tbl[x.toNat]? = some tbl[x.toNat] := List.getElem?_eq_getElem hxlt
    rcases hr x.toNat _ he with hm1 | ⟨hn0, _, a2, b, ha2, hb, _, hab⟩
    · refine ⟨0, Nat.zero_le _, h0, ?_⟩
      rw [follow_succ_of_nonneg tbl 0 x h0, List.getD_eq_getElem?_getD, he]
      exact hm1
    · rw [ha] at ha2
      cases ha2
      have hlt := later_ends_lt intervals a.end_ b (List.getElem?_mem hb) hab
      obtain ⟨k, hk, hk0, hk1⟩ := ih tbl[x.toNat] b hn0 hb (by omega)
      refine ⟨k + 1, by omega, ?_, ?_⟩
      · rw [follow_succ_of_nonneg tbl k x h0, List.getD_eq_getElem?_getD, he]
        exact hk0
      · rw [follow_succ_of_nonneg tbl (k + 1) x h0, List.getD_eq_getElem?_getD, he]
        exact hk1

/-- C26 (chain monotonicity): after `index()` on a fresh load of `n ≥ 2`
intervals, `branch_right[i] = j ≥ 0` implies `j ≠ i` and `ends[j] ≥ ends[i]`.
When all stored ends are pairwise distinct: every hop along `branch_right`
goes to a strictly greater end; from any index the walk stands, after fewer
than `n` hops, on an index whose entry is `-1`; and after any queries that
return, every query given `n` hops or more returns, so both walks of
`search_overlap` end. -/
theorem chain_monotone (T : Type) (calls : List (Int × Int × T))
    (hn : 2 ≤ size (run_adds (SIntersect.new T) calls)) :
    ∃ s0, build calls = .ok s0 ∧
      (∀ (i : Nat) (x : Int), s0.branch_right[i]? = some x → 0 ≤ x →
        x.toNat ≠ i ∧ ∃ ei ex, (run_adds (SIntersect.new T) calls).ends[i]? = some ei ∧
          (run_adds (SIntersect.new T) calls).ends[x.toNat]? = some ex ∧ ei ≤ ex) ∧
      ((run_adds (SIntersect.new T) calls).ends.Nodup →
        (∀ (i : Nat) (x : Int), s0.branch_right[i]? = some x → 0 ≤ x →
          ∃ ei ex, (run_adds (SIntersect.new T) calls).ends[i]? = some ei ∧
            (run_adds (SIntersect.new T) calls).ends[x.toNat]? = some ex ∧ ei < ex) ∧
        (∀ i : Nat, i < size (run_adds (SIntersect.new T) calls) →
          ∃ k, k < size (run_adds (SIntersect.new T) calls) ∧
            0 ≤ follow s0.branch_right k (i : Int) ∧
            follow s0.branch_right (k + 1) (i : Int) = -1) ∧
        (∀ (fuel1 : Nat) (earlier : List (Int × Int)) (s1 : SIntersect T),
          run_queries fuel1 s0 earlier = .ok s1 →
          ∀ (fuel : Nat) (qs qe : Int) (out0 : List Nat),
            size (run_adds (SIntersect.new T) calls) ≤ fuel →
            ∃ r, search_overlap fuel s1 qs qe out0 = .ok r)) := by
  obtain ⟨s0, hs0, hzero, htab, hint, hr, _⟩ := build_valid calls hn
  obtain ⟨hst, hen, _, _⟩ := run_adds_fresh calls
  have htab0 := htab
  obtain ⟨t1, t2, t3, t4, t5, t6, t7⟩ := htab
  refine ⟨s0, hs0, ?_, ?_⟩
  · intro i x hx h0
    have hr2 := hr
    rw [hint] at hr2
    obtain ⟨_, _, hki, a, b, _, h2, _, h4, _, hR⟩ :=
      neighbourOk_arrays _ _ _ _ _ hst hen hr2 i x hx (by omega)
    exact ⟨hki, a.end_, b.end_, h2, h4, hR⟩
  · intro hnd
    have hnd2 : (s0.intervals.map (fun x => x.end_)).Nodup := by
      rw [hint, ← hen]
      exact hnd
    have hstrict := neighbourOk_strict s0.intervals s0.branch_right hnd2 hr
    refine ⟨?_, ?_, ?_⟩
    · intro i x hx h0
      have hs2 := hstrict
      rw [hint] at hs2
      obtain ⟨_, _, _, a, b, _, h2, _, h4, _, hR⟩ :=
        neighbourOk_arrays _ _ _ _ _ hst hen hs2 i x hx (by omega)
      exact ⟨a.end_, b.end_, h2, h4, hR⟩
    · intro i hi
      have hilt : i < s0.intervals.length := by
        rw [t1]
        exact hi
      have ha : s0.intervals[((i : Int)).toNat]? = some s0.intervals[i] := by
        rw [Int.toNat_natCast]
        exact List.getElem?_eq_getElem hilt
      have hrank := later_ends_lt_length s0.intervals s0.intervals[i] (List.getElem_mem hilt)
      obtain ⟨k, hk, hk0, hk1⟩ := chain_reaches_end s0.intervals s0.branch_right
        (by rw [t5, t1]) hstrict _ (i : Int) s0.intervals[i] (by omega) ha (Nat.le_refl _)
      exact ⟨k, by rw [t1] at hrank; omega, hk0, hk1⟩
    · intro fuel1 earlier s1 hs1 fuel qs qe out0 hfuel
      have hst1 := (whenOk_iff _ _).1
        (run_queries_state fuel1 earlier s0 (by omega) (by omega)) s1 hs1
      obtain ⟨k, l, hk, rfl⟩ := hst1
      have hret := search_overlap_returns { s0 with idx := k, last_q_start := l }
        (size (run_adds (SIntersect.new T) calls)) fuel qs qe out0
        ⟨t1, t2, t3, t4, t5, t6, t7⟩ (by omega) (by dsimp only; omega) hstrict hfuel
      rcases (returns_iff _ _).1 hret with ⟨r, hr1, _⟩
      exact ⟨r, hr1⟩


theorem chain_monotone_witness :
    2 ≤ size (run_adds (SIntersect.new Unit) worked_example_1) ∧
      (run_adds (SIntersect.new Unit) worked_example_1).ends.Nodup ∧
      ∃ s0, build worked_example_1 = .ok s0 ∧
        (∀ (i : Nat) (x : Int), s0.branch_right[i]? = some x → 0 ≤ x →
          x.toNat ≠ i ∧ ∃ ei ex,
            (run_adds (SIntersect.new Unit) worked_example_1).ends[i]? = some ei ∧
            (run_adds (SIntersect.new Unit) worked_example_1).ends[x.toNat]? = some ex ∧
            ei ≤ ex) ∧
        ((run_adds (SIntersect.new Unit) worked_example_1).ends.Nodup →
          (∀ (i : Nat) (x : Int), s0.branch_right[i]? = some x → 0 ≤ x →
            ∃ ei ex, (run_adds (SIntersect.new Unit) worked_example_1).ends[i]? = some ei ∧
              (run_adds (SIntersect.new Unit) worked_example_1).ends[x.toNat]? = some ex ∧
              ei < ex) ∧
          (∀ i : Nat, i < size (run_adds (SIntersect.new Unit) worked_example_1) →
            ∃ k, k < size (run_adds (SIntersect.new Unit) worked_example_1) ∧
              0 ≤ follow s0.branch_right k (i : Int) ∧
              follow s0.branch_right (k + 1) (i : Int) = -1) ∧
          (∀ (fuel1 : Nat) (earlier : List (Int × Int)) (s1 : SIntersect Unit),
            run_queries fuel1 s0 earlier = .ok s1 →
            ∀ (fuel : Nat) (qs qe : Int) (out0 : List Nat),
              size (run_adds (SIntersect.new Unit) worked_example_1) ≤ fuel →
              ∃ r, search_overlap fuel s1 qs qe out0 = .ok r)) :=
  ⟨by decide, by decide!, chain_monotone Unit worked_example_1 (by decide)⟩

end sortedIntersect
